import Mathlib

/-! Parallel file-name search `ffi` (src/ffi.c, POSIX build).

A shallow embedding of the task queue, the exclusion filter, the name matcher,
the directory scan and the driver/worker threads of `ffi.c`, followed by the
properties proved about them.

Conventions of the embedding.

* A C string is the list of its bytes before the terminating NUL (`CStr`); a
  list that represents a string therefore holds no `0`.  The C library
  functions are written out over that representation, reading the terminator
  as the byte `0` one past the last element.
* The global variables of the program that are fixed after argument parsing are
  the fields of `Config`; the mutable globals (`queue`, `visited_cnt`,
  `found_cnt`) and the standard output are the fields of `State`.
* What the program obtains from the operating system and the C library
  (`opendir`/`readdir`, `stat`, `lstat`, `regexec`, `fnmatch`) is a field of
  `Platform`, as is the byte found by a read past the end of a string.
* The queue is a list of paths; `Linked` holds the same functions over the
  linked `Task` nodes, and the two are shown to agree.
-/

namespace Ffi

/-! ## C strings and the C library functions the program calls -/

/-- Bytes of a C string, terminator excluded. -/
abbrev CStr := List Nat

/-- Bytes of a string literal. -/
def bytes (s : String) : CStr := s.toList.map Char.toNat

/-- The read `s[i]` inside the object of the string `s`: a byte of the text, the
terminating NUL at index `strlen s`, and nothing (`none`) past the terminator. -/
def cread (s : CStr) (i : Nat) : Option Nat := (s ++ [0])[i]?

/-- Library `strlen`: the number of bytes before the first NUL. -/
def strlen : CStr → Nat
  | [] => 0
  | c :: cs => if c = 0 then 0 else strlen cs + 1

/-- Library `strcmp`: difference of the first pair of bytes that differ, `0` when
both strings end together. -/
def strcmp : CStr → CStr → Int
  | [], [] => 0
  | [], b :: _ => 0 - (b : Int)
  | a :: _, [] => (a : Int)
  | a :: as, b :: bs =>
    if a ≠ b then (a : Int) - (b : Int) else if a = 0 then 0 else strcmp as bs

/-- Library `strncmp`: as `strcmp`, over at most `n` bytes. -/
def strncmp : CStr → CStr → Nat → Int
  | _, _, 0 => 0
  | a, b, n + 1 =>
    if a.headD 0 ≠ b.headD 0 then (a.headD 0 : Int) - (b.headD 0 : Int)
    else if a.headD 0 = 0 then 0
    else strncmp a.tail b.tail n

/-- Library `tolower` in the "C" locale (the program never calls `setlocale`). -/
def tolower (c : Nat) : Nat := if 65 ≤ c ∧ c ≤ 90 then c + 32 else c

/-- The constant `PATH_MAX` (line 25). -/
def PATH_MAX : Nat := 4096

/-- The constant `FNM_CASEFOLD` (line 29). -/
def FNM_CASEFOLD : Nat := 1

/-- The macro `S_ISDIR` of `sys/stat.h`: `(m & S_IFMT) == S_IFDIR`. -/
def S_ISDIR (m : Nat) : Bool := m &&& 0o170000 == 0o040000

/-- The globals set by `main` before the traversal starts (lines 54-63, 66). -/
structure Config where
  ignore_case : Bool
  follow_symlinks : Bool
  use_glob : Bool
  use_regex : Bool
  rx_compiled : Bool
  pattern : CStr
  start_path : CStr
  thread_count : Int
  excludes : List CStr
deriving DecidableEq

/-- What the operating system and the C library answer.

* `opendir p` is the sequence of `d_name`s that `readdir` yields for the
  directory `p`, or `none` when `opendir` fails;
* `stat p` and `lstat p` are the `st_mode` on success, `none` on failure;
* `regexec name` is the result of `regexec(&compiled_rx, name, 0, NULL, 0)`;
* `fnmatch pat name flags` is the result of `fnmatch`;
* `stray s i` is the byte that memory happens to hold at index `i` of the
  string object `s` when `i` lies past its terminator;
* `malloc p` tells whether the `malloc` of line 98 succeeds in the call of
  `tq_push` that is to queue the path `p`; the `strdup` of line 100 is taken
  to succeed. -/
structure Platform where
  opendir : CStr → Option (List CStr)
  stat : CStr → Option Nat
  lstat : CStr → Option Nat
  regexec : CStr → Int
  fnmatch : CStr → CStr → Nat → Int
  stray : CStr → Nat → Nat
  malloc : CStr → Bool

/-! ## Exclusion filter and matcher -/

/-- The loop of `path_is_excluded` (lines 174-177) over `excludes[i..]`. -/
def excluded_loop : List CStr → CStr → Bool
  | [], _ => false
  | e :: es, p =>
    if strlen e ≠ 0 ∧ strncmp p e (strlen e) = 0 then true else excluded_loop es p

/-- Function `path_is_excluded` (lines 173-179). -/
def path_is_excluded (cfg : Config) (p : CStr) : Bool :=
  excluded_loop cfg.excludes p

/-- The comparison loop of the case-insensitive branch (lines 188-190), walking
`name` and `pattern` in step: `false` when it executes `return 0`, `true` when it
runs to its end (one of the two strings is exhausted). -/
def ci_loop : CStr → CStr → Bool
  | n :: ns, p :: ps =>
    if n = 0 ∨ p = 0 then true
    else if tolower n ≠ tolower p then false
    else ci_loop ns ps
  | _, _ => true

/-- The value of a read `s[i]`: the byte of the string object when `i` is inside
it, otherwise whatever the platform's memory holds there. -/
def read_at (pf : Platform) (s : CStr) (i : Nat) : Nat :=
  match cread s i with
  | some b => b
  | none => pf.stray s i

/-- The case-insensitive literal branch of `name_matches` (lines 187-192). -/
def name_matches_ci (pf : Platform) (pattern name : CStr) : Bool :=
  if ci_loop name pattern then read_at pf name (strlen pattern) == 0 else false

/-- Function `name_matches` (lines 182-194). -/
def name_matches (pf : Platform) (cfg : Config) (name : CStr) : Bool :=
  if cfg.use_regex && cfg.rx_compiled then pf.regexec name == 0
  else if cfg.use_glob then
    pf.fnmatch cfg.pattern name (if cfg.ignore_case then FNM_CASEFOLD else 0) == 0
  else if cfg.ignore_case then name_matches_ci pf cfg.pattern name
  else strcmp name cfg.pattern == 0

/-! ## Task queue -/

/-- The queue of lines 37-48: the `Task`s linked from `head` to `tail`, oldest
first, each standing for its `path`, and the `closed` flag. The mutex and the
condition variable are not part of the value: each function below is one
critical section. That the pointer manipulation of `tq_init`, `tq_push` and
`tq_pop` acts on this list as written here is shown for the node-level versions
in `Linked` (`linked_init_holds`, `linked_push_holds`, `linked_pop_holds`). -/
structure TaskQueue where
  tasks : List CStr
  closed : Bool
deriving DecidableEq, Repr

/-- Function `tq_init` (lines 85-95). -/
def tq_init : TaskQueue := { tasks := [], closed := false }

/-- Function `tq_push` (lines 97-115). `alloc_ok` tells whether `malloc`
succeeds; when it does the new `Task` is linked behind `tail`. -/
def tq_push (alloc_ok : Bool) (q : TaskQueue) (path : CStr) : TaskQueue :=
  if alloc_ok then { q with tasks := q.tasks ++ [path] } else q

/-- Outcome of a call of `tq_pop`. -/
inductive PopResult where
  | blocked : PopResult
  | empty : PopResult
  | task (path : CStr) (q : TaskQueue) : PopResult
deriving DecidableEq, Repr

/-- Function `tq_pop` (lines 117-140): `blocked` while the wait loop of line 129
holds the caller, `empty` for the `NULL` of line 131, otherwise the path of the
head `Task` and the queue without it. -/
def tq_pop (q : TaskQueue) : PopResult :=
  if q.tasks = [] ∧ q.closed = false then .blocked
  else
    match q.tasks with
    | [] => .empty
    | p :: rest => .task p { q with tasks := rest }

/-- Function `tq_close` (lines 142-154). -/
def tq_close (q : TaskQueue) : TaskQueue := { q with closed := true }

/-! ## Task queue, pointer level

The same four functions over the `Task` nodes themselves, to check that the list
view above is what the pointer manipulation does. -/

namespace Linked

/-- The `struct Task` of lines 32-35; `next` is an address, `none` for `NULL`. -/
structure Task where
  path : CStr
  next : Option Nat
deriving DecidableEq, Repr

/-- The `TaskQueue` of lines 37-48 with the memory that holds its nodes: `heap a`
is the `Task` allocated at address `a`, if any. -/
structure TaskQueue where
  heap : Nat → Option Task
  head : Option Nat
  tail : Option Nat
  closed : Bool

/-- Function `tq_init` (lines 85-95), on a heap without `Task`s. -/
def tq_init : TaskQueue :=
  { heap := fun _ => none, head := none, tail := none, closed := false }

/-- Function `tq_push` (lines 97-115); the last argument is what `malloc`
returned. -/
def tq_push (q : TaskQueue) (path : CStr) : Option Nat → TaskQueue
  | none => q
  | some t =>
    let heap1 := Function.update q.heap t (some { path := path, next := none })
    match q.tail with
    | some a =>
      { q with
        heap := Function.update heap1 a
          ((heap1 a).map (fun node => { node with next := some t })),
        tail := some t }
    | none => { q with heap := heap1, head := some t, tail := some t }

/-- Outcome of `tq_pop`; `fault` when `head` points at no `Task`. -/
inductive PopResult where
  | blocked : PopResult
  | empty : PopResult
  | task (path : CStr) (q : TaskQueue) : PopResult
  | fault : PopResult

/-- Function `tq_pop` (lines 117-140). -/
def tq_pop (q : TaskQueue) : PopResult :=
  match q.head with
  | none => if q.closed then .empty else .blocked
  | some t =>
    match q.heap t with
    | none => .fault
    | some node =>
      .task node.path
        { q with
          heap := Function.update q.heap t none,
          head := node.next,
          tail := if node.next = none then none else q.tail }

/-- Function `tq_close` (lines 142-154). -/
def tq_close (q : TaskQueue) : TaskQueue := { q with closed := true }

/-- From the pointer `p` the `next` links run through exactly the nodes `cells`
(address and path of each, in order) and end in `NULL`. -/
def Chain (heap : Nat → Option Task) : Option Nat → List (Nat × CStr) → Prop
  | p, [] => p = none
  | p, c :: cells =>
    p = some c.1 ∧ ∃ nx, heap c.1 = some { path := c.2, next := nx } ∧ Chain heap nx cells

/-- The pointer-level queue `q` holds the `Task`s of the list-level queue `aq`:
`head` starts a chain of distinct nodes carrying the paths of `aq` in order,
`tail` is the last of them, and the flags agree. -/
def Holds (q : TaskQueue) (aq : Ffi.TaskQueue) : Prop :=
  ∃ cells : List (Nat × CStr),
    Chain q.heap q.head cells ∧ (cells.map Prod.fst).Nodup ∧
    q.tail = (cells.map Prod.fst).getLast? ∧
    aq.tasks = cells.map Prod.snd ∧ aq.closed = q.closed

end Linked

/-! ## Shared state and the directory scan -/

/-- A `long long` value after an arithmetic step: reduced to the signed 64-bit
range, as `__atomic_add_fetch` does. -/
def wrap64 (x : Int) : Int :=
  (x + 9223372036854775808) % 18446744073709551616 - 9223372036854775808

/-- The macro `atomic_inc64` (line 81) applied to a counter holding `v`. -/
def atomic_inc64 (v : Int) : Int := wrap64 (v + 1)

/-- The mutable globals `queue`, `visited_cnt`, `found_cnt` (lines 50-52) and the
lines that `process_dir` has printed on standard output. -/
structure State where
  queue : TaskQueue
  visited_cnt : Int
  found_cnt : Int
  out : List CStr
deriving DecidableEq, Repr

/-- The value `snprintf(full, sizeof(full), "%s/%s", dirpath, d_name)` returns
(line 216): the length of the untruncated result. -/
def snprintf_len (dirpath d_name : CStr) : Nat := strlen dirpath + 1 + strlen d_name

/-- The text `"%s/%s"` formats to, which `full` holds when it fits. -/
def full_path (dirpath d_name : CStr) : CStr := dirpath ++ [47] ++ d_name

/-- The test of line 215: `d_name` is `"."` or `".."`. -/
def is_dots (d_name : CStr) : Bool := strcmp d_name [46] == 0 || strcmp d_name [46, 46] == 0

/-- The call of line 219: `stat` when `follow_symlinks` is set, else `lstat`. -/
def stat_entry (pf : Platform) (cfg : Config) (full : CStr) : Option Nat :=
  if cfg.follow_symlinks then pf.stat full else pf.lstat full

/-- One iteration of the `readdir` loop of `process_dir` (lines 215-224) for the
entry `d_name` of the directory `dirpath`. -/
def process_entry (pf : Platform) (cfg : Config) (dirpath : CStr) (st : State)
    (d_name : CStr) : State :=
  if is_dots d_name then st
  else if snprintf_len dirpath d_name ≥ PATH_MAX then st
  else if path_is_excluded cfg (full_path dirpath d_name) then st
  else
    let st1 := { st with visited_cnt := atomic_inc64 st.visited_cnt }
    match stat_entry pf cfg (full_path dirpath d_name) with
    | none => st1
    | some st_mode =>
      let st2 :=
        if name_matches pf cfg d_name then
          { st1 with found_cnt := atomic_inc64 st1.found_cnt,
                     out := st1.out ++ [full_path dirpath d_name] }
        else st1
      if S_ISDIR st_mode then
        { st2 with
          queue := tq_push (pf.malloc (full_path dirpath d_name)) st2.queue
            (full_path dirpath d_name) }
      else st2

/-- The `readdir` loop of `process_dir` (lines 214-225) over the entries that
`readdir` still has to yield. -/
def scan (pf : Platform) (cfg : Config) (dirpath : CStr) (names : List CStr)
    (st : State) : State :=
  names.foldl (process_entry pf cfg dirpath) st

/-- Function `process_dir` (lines 208-227). -/
def process_dir (pf : Platform) (cfg : Config) (dirpath : CStr) (st : State) : State :=
  match pf.opendir dirpath with
  | none => st
  | some names => scan pf cfg dirpath names st

/-- How a run of `worker` ends: it returns (line 275), or it waits inside
`tq_pop` on an empty queue that is still open. -/
inductive Halt where
  | returned : Halt
  | waiting : Halt
deriving DecidableEq, Repr

/-- Function `worker` (lines 267-276) run alone: `fuel` bounds the number of
`tq_pop` calls; `none` when the bound is reached first. -/
def worker (pf : Platform) (cfg : Config) : Nat → State → Option (Halt × State)
  | 0, _ => none
  | fuel + 1, st =>
    match tq_pop st.queue with
    | .blocked => some (.waiting, st)
    | .empty => some (.returned, st)
    | .task p q => worker pf cfg fuel (process_dir pf cfg p { st with queue := q })

/-- The globals as `main` leaves them at line 317: counters at zero, nothing
printed, the queue initialised and `start_path` pushed. -/
def seeded (pf : Platform) (cfg : Config) : State :=
  { queue := tq_push (pf.malloc cfg.start_path) tq_init cfg.start_path, visited_cnt := 0,
    found_cnt := 0, out := [] }

/-! ## Driver and workers as threads -/

/-- Where a worker thread stands: about to call (or waiting in) `tq_pop`; inside
the `readdir` loop of `process_dir dirpath` with `rest` still to come; returned. -/
inductive WorkerPc where
  | popping : WorkerPc
  | scanning (dirpath : CStr) (rest : List CStr) : WorkerPc
  | returned : WorkerPc
deriving DecidableEq, Repr

/-- Where `main` stands in lines 316-332: before `tq_init`; before the seeding
`tq_push`; in the `pthread_create` loop at index `i`; in `sleep`; before
`tq_close`; in the `pthread_join` loop at index `i`; past the final `printf`. -/
inductive DriverPc where
  | init : DriverPc
  | seed : DriverPc
  | spawn (i : Nat) : DriverPc
  | asleep : DriverPc
  | close : DriverPc
  | join (i : Nat) : DriverPc
  | done : DriverPc
deriving DecidableEq, Repr

/-- The whole process: shared state, the worker threads created so far, the
driver. -/
structure Sys where
  st : State
  workers : List WorkerPc
  driver : DriverPc
deriving DecidableEq, Repr

/-- A thread of the process. -/
inductive Thread where
  | driver : Thread
  | worker (i : Nat) : Thread
deriving DecidableEq, Repr

/-- The process when `main` reaches line 316: the statics are zero. -/
def Sys.start : Sys :=
  { st := { queue := { tasks := [], closed := false }, visited_cnt := 0, found_cnt := 0,
            out := [] },
    workers := [], driver := .init }

/-- The next step of `main` (lines 316-332); `none` while `pthread_join` waits
for a worker that has not returned, and after the end. How long `sleep` lasts is
not part of the state: its return is a step like the others. -/
def step_driver (pf : Platform) (cfg : Config) (s : Sys) : Option Sys :=
  match s.driver with
  | .init => some { s with st := { s.st with queue := tq_init }, driver := .seed }
  | .seed =>
    some { s with
           st := { s.st with
                   queue := tq_push (pf.malloc cfg.start_path) s.st.queue cfg.start_path },
           driver := .spawn 0 }
  | .spawn i =>
    if (i : Int) < cfg.thread_count then
      some { s with workers := s.workers ++ [.popping], driver := .spawn (i + 1) }
    else some { s with driver := .asleep }
  | .asleep => some { s with driver := .close }
  | .close => some { s with st := { s.st with queue := tq_close s.st.queue }, driver := .join 0 }
  | .join i =>
    if (i : Int) < cfg.thread_count then
      match s.workers[i]? with
      | some .returned => some { s with driver := .join (i + 1) }
      | _ => none
    else some { s with driver := .done }
  | .done => none

/-- The next step of worker `i` (lines 267-276 with `process_dir` inlined, one
`readdir` iteration a step); `none` while it waits in `tq_pop`, and after it has
returned. -/
def step_worker (pf : Platform) (cfg : Config) (s : Sys) (i : Nat) : Option Sys :=
  match s.workers[i]? with
  | none => none
  | some .returned => none
  | some .popping =>
    match tq_pop s.st.queue with
    | .blocked => none
    | .empty => some { s with workers := s.workers.set i .returned }
    | .task p q =>
      match pf.opendir p with
      | none => some { s with st := { s.st with queue := q } }
      | some names =>
        some { s with st := { s.st with queue := q },
                      workers := s.workers.set i (.scanning p names) }
  | some (.scanning _ []) => some { s with workers := s.workers.set i .popping }
  | some (.scanning dirpath (d_name :: rest)) =>
    some { s with st := process_entry pf cfg dirpath s.st d_name,
                  workers := s.workers.set i (.scanning dirpath rest) }

/-- One step of thread `t`, when it can take one. -/
def step (pf : Platform) (cfg : Config) (s : Sys) : Thread → Option Sys
  | .driver => step_driver pf cfg s
  | .worker i => step_worker pf cfg s i

/-- The process after the schedule `sched`: the scheduled threads step in turn,
a thread that cannot step leaves the process as it is. -/
def exec (pf : Platform) (cfg : Config) : List Thread → Sys → Sys
  | [], s => s
  | t :: sched, s => exec pf cfg sched ((step pf cfg s t).getD s)

/-- Number of directory scans in flight. -/
def in_flight (s : Sys) : Nat :=
  (s.workers.filter (fun w => match w with | .scanning _ _ => true | _ => false)).length

/-- Outstanding work: `Task`s queued plus directory scans in flight. -/
def outstanding (s : Sys) : Nat := s.st.queue.tasks.length + in_flight s

/-- The driver has executed the `tq_close` of line 329. -/
def DriverPc.past_close : DriverPc → Bool
  | .join _ => true
  | .done => true
  | _ => false

/-! ## Client of the queue used to state its FIFO behaviour -/

/-- A call on the queue: `tq_push` of a path, or `tq_pop`. -/
inductive QueueOp where
  | push (path : CStr) : QueueOp
  | pop : QueueOp
deriving DecidableEq, Repr

/-- The queue and the paths returned so far, after the calls `ops` are carried
out in order (allocation succeeding). A `tq_pop` that finds no `Task` returns no
path and leaves the queue as it is. -/
def run_ops : List QueueOp → TaskQueue × List CStr → TaskQueue × List CStr
  | [], s => s
  | .push path :: ops, (q, got) => run_ops ops (tq_push true q path, got)
  | .pop :: ops, (q, got) =>
    match tq_pop q with
    | .task p q1 => run_ops ops (q1, got ++ [p])
    | _ => run_ops ops (q, got)

/-- The paths pushed by `ops`, in the order of the calls. -/
def pushed : List QueueOp → List CStr
  | [] => []
  | .push path :: ops => path :: pushed ops
  | .pop :: ops => pushed ops

/-! ## Directory trees, for stating what a full run counts -/

/-- The entries of one directory, in listing order: each a non-directory
(`file`) or a directory with the entries below it (`dir`); `rest` are the
entries that follow. A directory tree is a root path with such a value. -/
inductive Forest where
  | nil : Forest
  | file (name : CStr) (rest : Forest) : Forest
  | dir (name : CStr) (kids : Forest) (rest : Forest) : Forest
deriving DecidableEq, Repr

/-- Names of the entries of the directory itself. -/
def Forest.names : Forest → List CStr
  | .nil => []
  | .file name rest => name :: rest.names
  | .dir name _ rest => name :: rest.names

/-- Number of entries, at all depths. -/
def Forest.size : Forest → Nat
  | .nil => 0
  | .file _ rest => 1 + rest.size
  | .dir _ kids rest => 1 + kids.size + rest.size

/-- The path is under an excluded prefix, in the words of the specification: it
starts, byte for byte, with one of the configured exclude strings. -/
def under_excluded (cfg : Config) (p : CStr) : Bool :=
  cfg.excludes.any (fun e => e.isPrefixOf p)

/-- The directory `dirpath` can be opened and lists, besides `.` and `..`, exactly
the entries of `f` in order. -/
def listing_ok (pf : Platform) (dirpath : CStr) (f : Forest) : Bool :=
  match pf.opendir dirpath with
  | none => false
  | some names => names.filter (fun n => !is_dots n) == f.names

/-- The `stat` call of line 219 succeeds on `full` and reports a directory
exactly when `is_dir` says so. -/
def stat_ok (pf : Platform) (cfg : Config) (full : CStr) (is_dir : Bool) : Bool :=
  match stat_entry pf cfg full with
  | some m => S_ISDIR m == is_dir
  | none => false

/-- Every entry of the tree below `dirpath`, at every depth, has a full path
shorter than `PATH_MAX` and a succeeding `stat` call that reports a directory
exactly for the `dir` entries. -/
def stats_ok (pf : Platform) (cfg : Config) : CStr → Forest → Bool
  | _, .nil => true
  | dirpath, .file name rest =>
    decide (snprintf_len dirpath name < PATH_MAX) &&
    stat_ok pf cfg (full_path dirpath name) false &&
    stats_ok pf cfg dirpath rest
  | dirpath, .dir name kids rest =>
    decide (snprintf_len dirpath name < PATH_MAX) &&
    stat_ok pf cfg (full_path dirpath name) true &&
    stats_ok pf cfg (full_path dirpath name) kids &&
    stats_ok pf cfg dirpath rest

/-- Below `dirpath` the file system shows the program the tree `f`: every entry
that is not under an excluded prefix has a full path shorter than `PATH_MAX` and
a succeeding `stat` call that reports a directory exactly for the `dir` entries,
and every such directory can be opened and lists its entries. Nothing is asked
of the entries under an excluded prefix. -/
def tree_ok (pf : Platform) (cfg : Config) : CStr → Forest → Bool
  | _, .nil => true
  | dirpath, .file name rest =>
    (under_excluded cfg (full_path dirpath name) ||
      (decide (snprintf_len dirpath name < PATH_MAX) &&
       stat_ok pf cfg (full_path dirpath name) false)) &&
    tree_ok pf cfg dirpath rest
  | dirpath, .dir name kids rest =>
    (under_excluded cfg (full_path dirpath name) ||
      (decide (snprintf_len dirpath name < PATH_MAX) &&
       stat_ok pf cfg (full_path dirpath name) true &&
       listing_ok pf (full_path dirpath name) kids &&
       tree_ok pf cfg (full_path dirpath name) kids)) &&
    tree_ok pf cfg dirpath rest

/-- The root `root` can be opened and the file system under it is the finite
tree `f`. -/
def fs_is (pf : Platform) (cfg : Config) (root : CStr) (f : Forest) : Bool :=
  listing_ok pf root f && tree_ok pf cfg root f

/-- Number of entries of the tree whose full path is not under an excluded
prefix. -/
def count_visited (cfg : Config) : CStr → Forest → Nat
  | _, .nil => 0
  | dirpath, .file name rest =>
    count_visited cfg dirpath rest +
      (if under_excluded cfg (full_path dirpath name) then 0 else 1)
  | dirpath, .dir name kids rest =>
    count_visited cfg dirpath rest + count_visited cfg (full_path dirpath name) kids +
      (if under_excluded cfg (full_path dirpath name) then 0 else 1)

/-- The entry `name` of `dirpath` is not under an excluded prefix and its base
name satisfies `name_matches`. -/
def is_match (pf : Platform) (cfg : Config) (dirpath name : CStr) : Bool :=
  !under_excluded cfg (full_path dirpath name) && name_matches pf cfg name

/-- Number of entries of the tree whose full path is not under an excluded prefix
and whose base name satisfies `name_matches`. -/
def count_matched (pf : Platform) (cfg : Config) : CStr → Forest → Nat
  | _, .nil => 0
  | dirpath, .file name rest =>
    count_matched pf cfg dirpath rest + (if is_match pf cfg dirpath name then 1 else 0)
  | dirpath, .dir name kids rest =>
    count_matched pf cfg dirpath rest + count_matched pf cfg (full_path dirpath name) kids +
      (if is_match pf cfg dirpath name then 1 else 0)

/-- Full paths of those entries, directory by directory, depth first. -/
def matched_paths (pf : Platform) (cfg : Config) : CStr → Forest → List CStr
  | _, .nil => []
  | dirpath, .file name rest =>
    (if is_match pf cfg dirpath name then [full_path dirpath name] else []) ++
      matched_paths pf cfg dirpath rest
  | dirpath, .dir name kids rest =>
    (if is_match pf cfg dirpath name then [full_path dirpath name] else []) ++
      matched_paths pf cfg (full_path dirpath name) kids ++ matched_paths pf cfg dirpath rest

/-- Entries of the directory itself that are not under an excluded prefix. -/
def direct_visited (cfg : Config) (dirpath : CStr) : Forest → Nat
  | .nil => 0
  | .file name rest =>
    direct_visited cfg dirpath rest +
      (if under_excluded cfg (full_path dirpath name) then 0 else 1)
  | .dir name _ rest =>
    direct_visited cfg dirpath rest +
      (if under_excluded cfg (full_path dirpath name) then 0 else 1)

/-- Entries of the directory itself that are not under an excluded prefix and
match. -/
def direct_matched (pf : Platform) (cfg : Config) (dirpath : CStr) : Forest → Nat
  | .nil => 0
  | .file name rest =>
    direct_matched pf cfg dirpath rest + (if is_match pf cfg dirpath name then 1 else 0)
  | .dir name _ rest =>
    direct_matched pf cfg dirpath rest + (if is_match pf cfg dirpath name then 1 else 0)

/-- Their full paths, in listing order. -/
def direct_paths (pf : Platform) (cfg : Config) (dirpath : CStr) : Forest → List CStr
  | .nil => []
  | .file name rest =>
    (if is_match pf cfg dirpath name then [full_path dirpath name] else []) ++
      direct_paths pf cfg dirpath rest
  | .dir name _ rest =>
    (if is_match pf cfg dirpath name then [full_path dirpath name] else []) ++
      direct_paths pf cfg dirpath rest

/-- The subdirectories of the directory that are not under an excluded prefix,
each with the entries below it, in listing order. -/
def subdirs (cfg : Config) (dirpath : CStr) : Forest → List (CStr × Forest)
  | .nil => []
  | .file _ rest => subdirs cfg dirpath rest
  | .dir name kids rest =>
    (if under_excluded cfg (full_path dirpath name) then []
     else [(full_path dirpath name, kids)]) ++ subdirs cfg dirpath rest

/-- The state `st` after `paths` were pushed, `visited_cnt` was incremented `v`
times, `found_cnt` `m` times, and `lines` were printed. -/
def State.advance (st : State) (paths : List CStr) (v m : Nat) (lines : List CStr) : State :=
  { queue := { tasks := st.queue.tasks ++ paths, closed := st.queue.closed },
    visited_cnt := atomic_inc64^[v] st.visited_cnt,
    found_cnt := atomic_inc64^[m] st.found_cnt,
    out := st.out ++ lines }

/-- Directories waiting in the queue, each with the tree below it: totals. -/
def pend_weight (pend : List (CStr × Forest)) : Nat :=
  (pend.map (fun x => 1 + x.2.size)).sum

/-- Sum of `count_visited` over the waiting directories. -/
def pend_visited (cfg : Config) (pend : List (CStr × Forest)) : Nat :=
  (pend.map (fun x => count_visited cfg x.1 x.2)).sum

/-- Sum of `count_matched` over the waiting directories. -/
def pend_matched (pf : Platform) (cfg : Config) (pend : List (CStr × Forest)) : Nat :=
  (pend.map (fun x => count_matched pf cfg x.1 x.2)).sum

/-- The matching paths below the waiting directories. -/
def pend_paths (pf : Platform) (cfg : Config) : List (CStr × Forest) → List CStr
  | [] => []
  | x :: pend => matched_paths pf cfg x.1 x.2 ++ pend_paths pf cfg pend

/-! ## Concrete inputs -/

/-- A platform with an empty file system, whose stray memory reads `fill`. -/
def pf_blank (fill : Nat) : Platform :=
  { opendir := fun _ => none, stat := fun _ => none, lstat := fun _ => none,
    regexec := fun _ => 1, fnmatch := fun _ _ _ => 1, stray := fun _ _ => fill,
    malloc := fun _ => true }

/-- Literal mode, options off, pattern `pat`, start path `/root`. -/
def cfg_literal (pat : CStr) : Config :=
  { ignore_case := false, follow_symlinks := false, use_glob := false, use_regex := false,
    rx_compiled := false, pattern := pat, start_path := bytes "/root", thread_count := 1,
    excludes := [] }

/-- Case-insensitive literal mode with pattern `pat`. -/
def cfg_ci (pat : CStr) : Config := { cfg_literal pat with ignore_case := true }

/-- A platform given by tables: the listing of each directory that can be opened,
the `st_mode` of each path `stat` succeeds on, the same for `lstat`; every
allocation succeeds. -/
def pf_table (dirs : List (CStr × List CStr)) (modes lmodes : List (CStr × Nat)) : Platform :=
  { opendir := fun p => dirs.lookup p, stat := fun p => modes.lookup p,
    lstat := fun p => lmodes.lookup p,
    regexec := fun _ => 1, fnmatch := fun _ _ _ => 1, stray := fun _ _ => 0,
    malloc := fun _ => true }

/-- The globals before any directory is scanned, with an empty open queue. -/
def st_zero : State := { queue := tq_init, visited_cnt := 0, found_cnt := 0, out := [] }

/-- Directory `/d` holding the entry `x`, on which `stat` and `lstat` fail. -/
def pf_nostat : Platform :=
  pf_table [(bytes "/d", [bytes ".", bytes "..", bytes "x", bytes "y"])]
    [(bytes "/d/y", 0o100644)] [(bytes "/d/y", 0o100644)]

/-- The fixture `/root/{a.txt, sub/b.TXT, sub/a.txt, excluded/a.txt}`. -/
def pf_fixture : Platform :=
  pf_table
    [(bytes "/root", [bytes ".", bytes "..", bytes "a.txt", bytes "sub", bytes "excluded"]),
     (bytes "/root/sub", [bytes ".", bytes "..", bytes "b.TXT", bytes "a.txt"]),
     (bytes "/root/excluded", [bytes ".", bytes "..", bytes "a.txt"])]
    [(bytes "/root/a.txt", 0o100644), (bytes "/root/sub", 0o040755),
     (bytes "/root/excluded", 0o040755), (bytes "/root/sub/b.TXT", 0o100644),
     (bytes "/root/sub/a.txt", 0o100644), (bytes "/root/excluded/a.txt", 0o100644)]
    [(bytes "/root/a.txt", 0o100644), (bytes "/root/sub", 0o040755),
     (bytes "/root/excluded", 0o040755), (bytes "/root/sub/b.TXT", 0o100644),
     (bytes "/root/sub/a.txt", 0o100644), (bytes "/root/excluded/a.txt", 0o100644)]

/-- The fixture as a tree below `/root`. -/
def forest_fixture : Forest :=
  .file (bytes "a.txt")
    (.dir (bytes "sub") (.file (bytes "b.TXT") (.file (bytes "a.txt") .nil))
      (.dir (bytes "excluded") (.file (bytes "a.txt") .nil) .nil))

/-- Pattern `a.txt`, literal mode, `/root/excluded` excluded, start path `/root`. -/
def cfg_fixture : Config :=
  { cfg_literal (bytes "a.txt") with excludes := [bytes "/root/excluded"] }

/-- The fixture with nothing known of `/root/excluded`: `stat` fails on it and
below it, and it cannot be opened. -/
def pf_hidden : Platform :=
  pf_table
    [(bytes "/root", [bytes ".", bytes "..", bytes "a.txt", bytes "sub", bytes "excluded"]),
     (bytes "/root/sub", [bytes ".", bytes "..", bytes "b.TXT", bytes "a.txt"])]
    [(bytes "/root/a.txt", 0o100644), (bytes "/root/sub", 0o040755),
     (bytes "/root/sub/b.TXT", 0o100644), (bytes "/root/sub/a.txt", 0o100644)]
    [(bytes "/root/a.txt", 0o100644), (bytes "/root/sub", 0o040755),
     (bytes "/root/sub/b.TXT", 0o100644), (bytes "/root/sub/a.txt", 0o100644)]

/-- The fixture's configuration with the empty string as the one exclude
string. -/
def cfg_empty_exclude : Config := { cfg_literal (bytes "a.txt") with excludes := [[]] }

/-- The fixture with `/root/sub` unreadable: `opendir` fails on it. -/
def pf_unreadable : Platform :=
  { pf_fixture with
    opendir := fun p => if p = bytes "/root/sub" then none else pf_fixture.opendir p }

/-- The fixture on a platform where the allocation of a `Task` succeeds for the
root only. -/
def pf_nomem : Platform := { pf_fixture with malloc := fun p => p == bytes "/root" }

/-- C3. `tq_pop` returns EMPTY exactly when no `Task` is queued and `closed` is
set; with a `Task` queued it returns the head `Task` and unlinks it, whether or
not the queue is closed; on an empty open queue the caller stays blocked. -/
theorem tq_pop_outcomes (q : TaskQueue) :
    (tq_pop q = .empty ↔ q.tasks = [] ∧ q.closed = true) ∧
    (∀ p rest, q.tasks = p :: rest → tq_pop q = .task p { q with tasks := rest }) ∧
    (q.tasks = [] → q.closed = false → tq_pop q = .blocked) := by
  obtain ⟨tasks, closed⟩ := q
  cases tasks <;> cases closed <;> simp [tq_pop]

/-- C3 at concrete queues: empty and closed, non-empty and closed, empty and open. -/
theorem tq_pop_outcomes_witness :
    tq_pop { tasks := [], closed := true } = .empty ∧
    tq_pop { tasks := [bytes "/a", bytes "/b"], closed := true }
      = .task (bytes "/a") { tasks := [bytes "/b"], closed := true } ∧
    tq_pop { tasks := [], closed := false } = .blocked :=
  ⟨(tq_pop_outcomes _).1.2 ⟨rfl, rfl⟩, (tq_pop_outcomes _).2.1 _ _ rfl,
   (tq_pop_outcomes _).2.2 rfl rfl⟩

/-- C4 fails: on a closed queue `tq_push` still links the new `Task`. -/
theorem tq_push_closed_accepts :
    (tq_push true { tasks := [], closed := true } (bytes "/d")).tasks = [bytes "/d"] ∧
    tq_push true { tasks := [], closed := true } (bytes "/d") ≠ { tasks := [], closed := true } ∧
    tq_pop (tq_push true { tasks := [], closed := true } (bytes "/d"))
      = .task (bytes "/d") { tasks := [], closed := true } := by
  decide

/-- C4 as amended. `tq_push` never looks at `closed`: when allocation succeeds it
appends the path as the newest `Task` and leaves `closed` as it was, on a closed
queue as on an open one; it leaves the queue untouched only when allocation
fails. -/
theorem tq_push_appends (q : TaskQueue) (path : CStr) :
    (tq_push true q path).tasks = q.tasks ++ [path] ∧
    (tq_push true q path).closed = q.closed ∧
    tq_push false q path = q := by
  simp [tq_push]

/-- Invariant of `run_ops`: what has been returned, followed by what is queued,
grows by exactly the paths pushed. -/
theorem run_ops_inv (ops : List QueueOp) (q : TaskQueue) (got : List CStr) :
    (run_ops ops (q, got)).2 ++ (run_ops ops (q, got)).1.tasks
        = got ++ q.tasks ++ pushed ops ∧
    (run_ops ops (q, got)).1.closed = q.closed := by
  induction ops generalizing q got with
  | nil => simp [run_ops, pushed]
  | cons op ops ih =>
    cases op with
    | push path =>
      obtain ⟨h1, h2⟩ := ih (tq_push true q path) got
      simp only [run_ops, pushed]
      refine ⟨?_, ?_⟩
      · rw [h1]; simp [tq_push]
      · rw [h2]; simp [tq_push]
    | pop =>
      obtain ⟨tasks, closed⟩ := q
      cases tasks with
      | nil =>
        cases closed <;> simpa [run_ops, pushed, tq_pop] using ih _ got
      | cons p rest =>
        obtain ⟨h1, h2⟩ := ih { tasks := rest, closed := closed } (got ++ [p])
        simp only [run_ops, pushed, tq_pop]
        simp only [reduceCtorEq, false_and, if_false]
        exact ⟨by rw [h1]; simp, h2⟩

/-- C5. From the state of `tq_init`, after any interleaved sequence of `tq_push`
and `tq_pop` calls: the queue is still open; the paths returned so far followed
by the paths still queued are exactly the paths pushed, in push order (each
pushed path is returned at most once, in FIFO order, and is otherwise still
queued); a further `tq_pop` that finds a `Task` returns the oldest pushed
path not yet returned and removes just that one; and it finds a `Task` whenever
one is queued. -/
theorem tq_fifo (ops : List QueueOp) :
    (run_ops ops (tq_init, [])).1.closed = false ∧
    (run_ops ops (tq_init, [])).2 ++ (run_ops ops (tq_init, [])).1.tasks = pushed ops ∧
    (∀ p q1, tq_pop (run_ops ops (tq_init, [])).1 = .task p q1 →
      pushed ops = (run_ops ops (tq_init, [])).2 ++ p :: q1.tasks ∧
      (pushed ops)[(run_ops ops (tq_init, [])).2.length]? = some p ∧
      q1.closed = false) ∧
    ((run_ops ops (tq_init, [])).1.tasks ≠ [] →
      ∃ p q1, tq_pop (run_ops ops (tq_init, [])).1 = .task p q1) := by
  have hlast : (run_ops ops (tq_init, [])).1.tasks ≠ [] →
      ∃ p q1, tq_pop (run_ops ops (tq_init, [])).1 = .task p q1 := by
    intro hne
    generalize (run_ops ops (tq_init, [])).1 = q at hne
    obtain ⟨tasks, closed⟩ := q
    cases tasks with
    | nil => exact absurd rfl hne
    | cons a rest => exact ⟨a, { tasks := rest, closed := closed }, by simp [tq_pop]⟩
  obtain ⟨h1, h2⟩ := run_ops_inv ops tq_init []
  have h1' : (run_ops ops (tq_init, [])).2 ++ (run_ops ops (tq_init, [])).1.tasks
      = pushed ops := by simpa [tq_init] using h1
  have h2' : (run_ops ops (tq_init, [])).1.closed = false := by simpa [tq_init] using h2
  refine ⟨h2', h1', ?_, hlast⟩
  clear hlast
  intro p q1 hpop
  generalize run_ops ops (tq_init, []) = r at *
  obtain ⟨⟨tasks, closed⟩, got⟩ := r
  cases tasks with
  | nil => cases closed <;> simp [tq_pop] at hpop
  | cons a rest =>
    simp only [tq_pop, reduceCtorEq, false_and, if_false, PopResult.task.injEq] at hpop
    obtain ⟨rfl, rfl⟩ := hpop
    simp only at h1' h2' ⊢
    refine ⟨h1'.symm, ?_, h2'⟩
    rw [← h1', List.getElem?_append_right (le_refl _)]
    simp

/-- C5 at a concrete interleaving: push `/a`, push `/b`, pop, push `/c`, pop. -/
theorem tq_fifo_witness :
    run_ops [.push (bytes "/a"), .push (bytes "/b"), .pop, .push (bytes "/c"), .pop]
        (tq_init, [])
      = ({ tasks := [bytes "/c"], closed := false }, [bytes "/a", bytes "/b"]) ∧
    tq_pop { tasks := [bytes "/c"], closed := false }
      = .task (bytes "/c") { tasks := [], closed := false } ∧
    pushed [.push (bytes "/a"), .push (bytes "/b"), .pop, .push (bytes "/c"), .pop]
      = [bytes "/a", bytes "/b"] ++ bytes "/c" :: [] := by
  have h := tq_fifo [.push (bytes "/a"), .push (bytes "/b"), .pop, .push (bytes "/c"), .pop]
  refine ⟨by decide, by decide, ?_⟩
  exact (h.2.2.1 (bytes "/c") { tasks := [], closed := false } (by decide)).1

/-! ## Task queue, pointer level -/

theorem chain_allocated (heap : Nat → Option Linked.Task) (p : Option Nat)
    (cells : List (Nat × CStr)) (h : Linked.Chain heap p cells) :
    ∀ a ∈ cells.map Prod.fst, heap a ≠ none := by
  induction cells generalizing p with
  | nil => simp
  | cons c cells ih =>
    obtain ⟨_, nx, hc, hrest⟩ := h
    intro a ha
    simp only [List.map_cons, List.mem_cons] at ha
    rcases ha with rfl | ha
    · simp [hc]
    · exact ih nx hrest a ha

/-- Writing to an address outside a chain leaves the chain as it is. -/
theorem chain_frame (heap : Nat → Option Linked.Task) (p : Option Nat)
    (cells : List (Nat × CStr)) (a : Nat) (v : Option Linked.Task)
    (h : Linked.Chain heap p cells) (ha : a ∉ cells.map Prod.fst) :
    Linked.Chain (Function.update heap a v) p cells := by
  induction cells generalizing p with
  | nil => exact h
  | cons c cells ih =>
    obtain ⟨hp, nx, hc, hrest⟩ := h
    simp only [List.map_cons, List.mem_cons, not_or] at ha
    refine ⟨hp, nx, ?_, ih nx hrest ha.2⟩
    rw [Function.update_noteq (Ne.symm ha.1)]
    exact hc

/-- Linking a fresh node behind the last node of a chain extends the chain. -/
theorem chain_snoc (heap : Nat → Option Linked.Task) (p : Option Nat)
    (cells : List (Nat × CStr)) (a t : Nat) (s path : CStr)
    (h : Linked.Chain heap p (cells ++ [(a, s)]))
    (hnd : ((cells ++ [(a, s)]).map Prod.fst).Nodup)
    (ht : t ∉ (cells ++ [(a, s)]).map Prod.fst) :
    Linked.Chain
      (Function.update (Function.update heap t (some { path := path, next := none })) a
        (((Function.update heap t (some { path := path, next := none })) a).map
          (fun node => { node with next := some t })))
      p (cells ++ [(a, s), (t, path)]) := by
  induction cells generalizing p with
  | nil =>
    obtain ⟨hp, nx, hc, hrest⟩ := h
    have hta : t ≠ a := by simpa using ht
    simp only [Linked.Chain] at hrest
    subst hrest
    refine ⟨hp, some t, ?_, rfl, none, ?_, rfl⟩
    · simp [Function.update_noteq (Ne.symm hta), hc]
    · simp [Function.update_noteq hta]
  | cons c cells ih =>
    obtain ⟨hp, nx, hc, hrest⟩ := h
    simp only [List.cons_append, List.map_cons, List.nodup_cons] at hnd
    simp only [List.cons_append, List.map_cons, List.mem_cons, not_or] at ht
    have hca : c.1 ≠ a := by
      intro hca
      exact hnd.1 (by simp [hca])
    refine ⟨hp, nx, ?_, ih nx hrest hnd.2 ht.2⟩
    rw [Function.update_noteq hca, Function.update_noteq (Ne.symm ht.1)]
    exact hc

theorem linked_init_holds : Linked.Holds Linked.tq_init tq_init :=
  ⟨[], rfl, by simp, rfl, rfl, rfl⟩

theorem linked_close_holds (q : Linked.TaskQueue) (aq : TaskQueue)
    (h : Linked.Holds q aq) : Linked.Holds (Linked.tq_close q) (tq_close aq) := by
  obtain ⟨cells, hchain, hnd, htail, htasks, _⟩ := h
  exact ⟨cells, hchain, hnd, htail, htasks, rfl⟩

/-- Pointer-level `tq_push` into memory that `malloc` returned (or after a failed
`malloc`) does to the `Task`s what the list-level `tq_push` does. -/
theorem linked_push_holds (q : Linked.TaskQueue) (aq : TaskQueue) (path : CStr)
    (h : Linked.Holds q aq) :
    Linked.Holds (Linked.tq_push q path none) (tq_push false aq path) ∧
    ∀ t, q.heap t = none →
      Linked.Holds (Linked.tq_push q path (some t)) (tq_push true aq path) := by
  refine ⟨by simpa [Linked.tq_push, tq_push] using h, ?_⟩
  intro t hfree
  obtain ⟨cells, hchain, hnd, htail, htasks, hclosed⟩ := h
  have hfresh : t ∉ cells.map Prod.fst :=
    fun hmem => chain_allocated q.heap q.head cells hchain t hmem hfree
  rcases List.eq_nil_or_concat cells with hnil | ⟨front, last, hcons⟩
  · subst hnil
    simp only [List.map_nil, List.getLast?_nil] at htail
    have hhead : q.head = none := hchain
    refine ⟨[(t, path)], ?_, by simp, ?_, ?_, ?_⟩
    · simp only [Linked.tq_push, htail]
      exact ⟨rfl, none, by simp, rfl⟩
    · simp [Linked.tq_push, htail]
    · simp [tq_push, htasks]
    · simp [Linked.tq_push, htail, tq_push, hclosed]
  · obtain ⟨a, s⟩ := last
    rw [List.concat_eq_append] at hcons
    subst hcons
    have htail1 : q.tail = some a := by
      rw [htail]
      simp
    refine ⟨front ++ [(a, s), (t, path)], ?_, ?_, ?_, ?_, ?_⟩
    · simp only [Linked.tq_push, htail1]
      exact chain_snoc q.heap q.head front a t s path hchain hnd hfresh
    · have : (front ++ [(a, s), (t, path)]).map Prod.fst
          = (front ++ [(a, s)]).map Prod.fst ++ [t] := by simp
      rw [this]
      exact List.Nodup.append hnd (by simp) (by simpa using hfresh)
    · simp [Linked.tq_push, htail1]
    · simp [tq_push, htasks]
    · simp [Linked.tq_push, htail1, tq_push, hclosed]

/-- Pointer-level `tq_pop` has the outcome of the list-level `tq_pop`, and after a
`Task` was taken the queue left holds the `Task`s of the list-level rest. -/
theorem linked_pop_holds (q : Linked.TaskQueue) (aq : TaskQueue) (h : Linked.Holds q aq) :
    match tq_pop aq with
    | .blocked => Linked.tq_pop q = .blocked
    | .empty => Linked.tq_pop q = .empty
    | .task p aq1 => ∃ q1, Linked.tq_pop q = .task p q1 ∧ Linked.Holds q1 aq1 := by
  obtain ⟨cells, hchain, hnd, htail, htasks, hclosed⟩ := h
  obtain ⟨tasks, closed⟩ := aq
  simp only at htasks hclosed
  subst htasks hclosed
  cases cells with
  | nil =>
    have hhead : q.head = none := hchain
    cases hc : q.closed <;> simp [tq_pop, Linked.tq_pop, hhead, hc]
  | cons c rest =>
    obtain ⟨hp, nx, hc, hrest⟩ := hchain
    simp only [tq_pop, List.map_cons, reduceCtorEq, false_and, if_false]
    simp only [List.map_cons, List.nodup_cons] at hnd
    refine ⟨{ q with heap := Function.update q.heap c.1 none, head := nx,
                     tail := if nx = none then none else q.tail },
      by simp only [Linked.tq_pop, hp, hc], rest, ?_, hnd.2, ?_, rfl, rfl⟩
    · exact chain_frame q.heap nx rest c.1 none hrest hnd.1
    · cases rest with
      | nil =>
        have hnx : nx = none := hrest
        simp [hnx]
      | cons d rest1 =>
        have hnx : nx = some d.1 := hrest.1
        simp only [hnx, reduceCtorEq, if_false, htail]
        simp [List.getLast?_cons_cons]

/-! ## C strings -/

theorem strlen_eq_length (s : CStr) (h : 0 ∉ s) : strlen s = s.length := by
  induction s with
  | nil => rfl
  | cons c cs ih =>
    have hc : c ≠ 0 := fun hc => h (by simp [hc])
    have hcs : 0 ∉ cs := fun hm => h (List.mem_cons_of_mem _ hm)
    simp [strlen, hc, ih hcs]

theorem strncmp_eq_zero_iff (e p : CStr) (h : 0 ∉ e) :
    strncmp p e e.length = 0 ↔ e <+: p := by
  induction e generalizing p with
  | nil => simp [strncmp]
  | cons c cs ih =>
    have hc : c ≠ 0 := fun hc => h (by simp [hc])
    have hcs : 0 ∉ cs := fun hm => h (List.mem_cons_of_mem _ hm)
    cases p with
    | nil =>
      have : (0 : Int) - (c : Int) ≠ 0 := by omega
      simp [strncmp, hc, Ne.symm hc, this]
    | cons a as =>
      by_cases hac : a = c
      · subst hac
        simp [strncmp, hc, ih as hcs, List.cons_prefix_cons]
      · have : (a : Int) - (c : Int) ≠ 0 := by omega
        simp only [strncmp, List.headD_cons, ne_eq, hac, not_false_eq_true, if_true, this,
          List.length_cons, List.cons_prefix_cons, false_iff, not_and]
        exact fun hca => absurd hca.symm hac

/-- A path that `strncmp` finds to start with `e` still does after text is
appended to it. -/
theorem strncmp_append (e p s : CStr) (h : strncmp p e (strlen e) = 0) :
    strncmp (p ++ s) e (strlen e) = 0 := by
  induction e generalizing p with
  | nil => simp [strlen, strncmp]
  | cons c cs ih =>
    by_cases hc : c = 0
    · simp [strlen, hc, strncmp]
    · simp only [strlen, hc, if_false] at h ⊢
      cases p with
      | nil =>
        have : (0 : Int) - (c : Int) ≠ 0 := by omega
        simp [strncmp, hc, Ne.symm hc, this] at h
      | cons a as =>
        by_cases hac : a = c
        · subst hac
          simp only [strncmp, List.headD_cons, ne_eq, not_true_eq_false, if_false, hc,
            List.tail_cons, List.cons_append] at h ⊢
          exact ih as h
        · have : (a : Int) - (c : Int) ≠ 0 := by omega
          simp [strncmp, hac, this] at h

/-! ## Exclusion filter -/

theorem excluded_loop_iff (es : List CStr) (p : CStr) (h : ∀ e ∈ es, 0 ∉ e) :
    excluded_loop es p = true ↔ ∃ e ∈ es, e ≠ [] ∧ e <+: p := by
  induction es with
  | nil => simp [excluded_loop]
  | cons e es ih =>
    have he : 0 ∉ e := h e (by simp)
    have hes : ∀ x ∈ es, 0 ∉ x := fun x hx => h x (List.mem_cons_of_mem _ hx)
    have hlen : strlen e = e.length := strlen_eq_length e he
    have hne : e.length ≠ 0 ↔ e ≠ [] := by simp
    simp only [excluded_loop, hlen, strncmp_eq_zero_iff e p he, List.mem_cons,
      exists_eq_or_imp]
    by_cases hc : e.length ≠ 0 ∧ e <+: p
    · rw [if_pos hc]
      simp only [true_iff]
      exact Or.inl ⟨hne.1 hc.1, hc.2⟩
    · rw [if_neg hc, ih hes]
      constructor
      · exact fun h2 => Or.inr h2
      · rintro (⟨h1, h2⟩ | h2)
        · exact absurd ⟨hne.2 h1, h2⟩ hc
        · exact h2

/-- Whatever lies below an excluded path is excluded. -/
theorem excluded_loop_append (es : List CStr) (p s : CStr) (h : excluded_loop es p = true) :
    excluded_loop es (p ++ s) = true := by
  induction es with
  | nil => simp [excluded_loop] at h
  | cons e es ih =>
    simp only [excluded_loop] at h ⊢
    by_cases hc : strlen e ≠ 0 ∧ strncmp p e (strlen e) = 0
    · rw [if_pos ⟨hc.1, strncmp_append e p s hc.2⟩]
    · rw [if_neg hc] at h
      split
      · rfl
      · exact ih h

/-- C6 fails for an empty exclude string: every path starts with it, and
`path_is_excluded` answers 0. -/
theorem path_is_excluded_empty_entry :
    path_is_excluded { cfg_literal (bytes "x") with excludes := [[]] } (bytes "/a") = false ∧
    ∃ e ∈ ({ cfg_literal (bytes "x") with excludes := [[]] } : Config).excludes,
      e <+: bytes "/a" := by
  refine ⟨by decide, [], by simp, by simp⟩

/-- C6 as amended. `path_is_excluded` is true exactly when the path starts, byte
for byte, with at least one non-empty string of the exclude list. -/
theorem path_is_excluded_iff (cfg : Config) (p : CStr) (h : ∀ e ∈ cfg.excludes, 0 ∉ e) :
    path_is_excluded cfg p = true ↔ ∃ e ∈ cfg.excludes, e ≠ [] ∧ e <+: p :=
  excluded_loop_iff cfg.excludes p h

/-- C6 amended, at excludes `/root/excluded` and the empty string. -/
theorem path_is_excluded_iff_witness :
    (∀ e ∈ ({ cfg_literal (bytes "x") with
              excludes := [bytes "/root/excluded", []] } : Config).excludes, 0 ∉ e) ∧
    (path_is_excluded { cfg_literal (bytes "x") with
        excludes := [bytes "/root/excluded", []] } (bytes "/root/excluded/a.txt") = true ↔
      ∃ e ∈ ({ cfg_literal (bytes "x") with
              excludes := [bytes "/root/excluded", []] } : Config).excludes,
        e ≠ [] ∧ e <+: bytes "/root/excluded/a.txt") :=
  ⟨by decide, path_is_excluded_iff _ _ (by decide)⟩

/-! ## Matcher, case-insensitive literal branch -/

/-- The comparison loop runs to its end exactly when the two strings agree, up
to ASCII case, on their common length. -/
theorem ci_loop_iff (name pattern : CStr) (hn : 0 ∉ name) (hp : 0 ∉ pattern) :
    ci_loop name pattern = true ↔
      (name.take pattern.length).map tolower = (pattern.take name.length).map tolower := by
  induction name generalizing pattern with
  | nil => simp [ci_loop]
  | cons n ns ih =>
    cases pattern with
    | nil => simp [ci_loop]
    | cons p ps =>
      have hn0 : n ≠ 0 := fun hc => hn (by simp [hc])
      have hp0 : p ≠ 0 := fun hc => hp (by simp [hc])
      have hns : 0 ∉ ns := fun hm => hn (List.mem_cons_of_mem _ hm)
      have hps : 0 ∉ ps := fun hm => hp (List.mem_cons_of_mem _ hm)
      by_cases hnp : tolower n = tolower p
      · simp [ci_loop, hn0, hp0, hnp, ih ps hns hps]
      · simp [ci_loop, hn0, hp0, hnp]

/-- The read `name[i]` for `i` up to `strlen name` is inside the object and is
NUL exactly at `i = strlen name`. -/
theorem read_at_inside (pf : Platform) (name : CStr) (i : Nat) (hn : 0 ∉ name)
    (hi : i ≤ name.length) :
    cread name i ≠ none ∧ (read_at pf name i = 0 ↔ i = name.length) := by
  unfold read_at cread
  rcases Nat.lt_or_eq_of_le hi with hlt | heq
  · rw [List.getElem?_append_left hlt, List.getElem?_eq_getElem hlt]
    refine ⟨by simp, ?_⟩
    have hmem : name[i] ∈ name := List.getElem_mem hlt
    have hne : name[i] ≠ 0 := fun hc => hn (hc ▸ hmem)
    simp only [hne, false_iff]
    omega
  · subst heq
    rw [List.getElem?_append_right (le_refl _)]
    simp

/-- Where the branch is right: for a name at least as long as the pattern the
result is equality up to ASCII case, whatever memory holds. -/
theorem name_matches_ci_of_le (pf : Platform) (pattern name : CStr) (hn : 0 ∉ name)
    (hp : 0 ∉ pattern) (hle : pattern.length ≤ name.length) :
    name_matches_ci pf pattern name = true ↔
      name.length = pattern.length ∧ name.map tolower = pattern.map tolower := by
  have hread := (read_at_inside pf name pattern.length hn hle).2
  unfold name_matches_ci
  rw [strlen_eq_length pattern hp]
  by_cases hloop : ci_loop name pattern = true
  · rw [if_pos hloop]
    rw [ci_loop_iff name pattern hn hp, List.take_of_length_le hle] at hloop
    simp only [beq_iff_eq, hread]
    constructor
    · intro h
      refine ⟨h.symm, ?_⟩
      rw [← hloop, h, List.take_length]
    · exact fun h => h.1.symm
  · rw [if_neg hloop]
    simp only [Bool.false_eq_true, false_iff, not_and]
    intro hlen hmap
    apply hloop
    rw [ci_loop_iff name pattern hn hp, hlen, List.take_length, ← hlen, List.take_length]
    exact hmap

/-- Where the branch goes wrong: for a name shorter than the pattern that agrees
with the start of the pattern up to ASCII case, the final read is past the name's
terminator and the result is whether that stray byte is NUL. -/
theorem name_matches_ci_of_lt (pf : Platform) (pattern name : CStr) (hn : 0 ∉ name)
    (hp : 0 ∉ pattern) (hlt : name.length < pattern.length)
    (hpre : name.map tolower = (pattern.take name.length).map tolower) :
    cread name (strlen pattern) = none ∧
    name_matches_ci pf pattern name = (pf.stray name (strlen pattern) == 0) := by
  have hloop : ci_loop name pattern = true := by
    rw [ci_loop_iff name pattern hn hp, List.take_of_length_le (le_of_lt hlt)]
    exact hpre
  have hnone : cread name (strlen pattern) = none := by
    unfold cread
    rw [strlen_eq_length pattern hp, List.getElem?_eq_none_iff]
    simp
    omega
  refine ⟨hnone, ?_⟩
  unfold name_matches_ci read_at
  rw [if_pos hloop, hnone]

/-- C7 at its failing input: name `ab`, pattern `abc`, case-insensitive literal
mode. The result is the stray byte read at `name[3]`: a match when it is NUL, no
match otherwise, although the lengths differ. -/
theorem name_matches_ci_short_name :
    name_matches (pf_blank 0) (cfg_ci (bytes "abc")) (bytes "ab") = true ∧
    name_matches (pf_blank 1) (cfg_ci (bytes "abc")) (bytes "ab") = false ∧
    (bytes "ab").length ≠ (bytes "abc").length := by
  decide

/-- C10 at its failing input: for name `ab` and pattern `abc` the comparison loop
ends without a mismatch, `strlen pattern` is 3 and `strlen name` is 2, and the
read `name[3]` lies past the terminator of the name. -/
theorem final_read_out_of_bounds :
    ci_loop (bytes "ab") (bytes "abc") = true ∧
    strlen (bytes "abc") = 3 ∧ strlen (bytes "ab") = 2 ∧
    cread (bytes "ab") (strlen (bytes "abc")) = none := by
  decide

/-! ## One directory entry -/

theorem scan_append_cons (pf : Platform) (cfg : Config) (dirpath : CStr)
    (pre post : List CStr) (d_name : CStr) (st : State) :
    scan pf cfg dirpath (pre ++ d_name :: post) st
      = scan pf cfg dirpath post
          (process_entry pf cfg dirpath (scan pf cfg dirpath pre st) d_name) := by
  simp [scan, List.foldl_append]

/-- What one iteration of the loop adds to the queue and to the output: a path
is pushed only when it is not excluded and the `stat` call reports a directory,
and printed only when it is not excluded and the `stat` call succeeds. -/
theorem process_entry_effects (pf : Platform) (cfg : Config) (dirpath d_name : CStr)
    (st : State) :
    ∃ new lines,
      (process_entry pf cfg dirpath st d_name).queue.tasks = st.queue.tasks ++ new ∧
      (process_entry pf cfg dirpath st d_name).out = st.out ++ lines ∧
      (∀ p ∈ new, path_is_excluded cfg p = false ∧
        ∃ m, stat_entry pf cfg p = some m ∧ S_ISDIR m = true) ∧
      (∀ p ∈ lines, path_is_excluded cfg p = false ∧ ∃ m, stat_entry pf cfg p = some m) := by
  by_cases hd : is_dots d_name = true
  · exact ⟨[], [], by simp [process_entry, hd], by simp [process_entry, hd], by simp, by simp⟩
  by_cases hfit : snprintf_len dirpath d_name ≥ PATH_MAX
  · exact ⟨[], [], by simp [process_entry, hd, hfit], by simp [process_entry, hd, hfit],
      by simp, by simp⟩
  by_cases hx : path_is_excluded cfg (full_path dirpath d_name) = true
  · exact ⟨[], [], by simp [process_entry, hd, hfit, hx], by simp [process_entry, hd, hfit, hx],
      by simp, by simp⟩
  have hx0 : path_is_excluded cfg (full_path dirpath d_name) = false := by simpa using hx
  cases hs : stat_entry pf cfg (full_path dirpath d_name) with
  | none =>
    exact ⟨[], [], by simp [process_entry, hd, hfit, hx, hs],
      by simp [process_entry, hd, hfit, hx, hs], by simp, by simp⟩
  | some m =>
    refine ⟨if S_ISDIR m && pf.malloc (full_path dirpath d_name)
        then [full_path dirpath d_name] else [],
      if name_matches pf cfg d_name then [full_path dirpath d_name] else [], ?_, ?_, ?_, ?_⟩
    · by_cases hdir : S_ISDIR m = true <;> by_cases hm : name_matches pf cfg d_name = true <;>
        by_cases ha : pf.malloc (full_path dirpath d_name) = true <;>
        simp [process_entry, hd, hfit, hx, hs, hdir, hm, ha, tq_push]
    · by_cases hdir : S_ISDIR m = true <;> by_cases hm : name_matches pf cfg d_name = true <;>
        by_cases ha : pf.malloc (full_path dirpath d_name) = true <;>
        simp [process_entry, hd, hfit, hx, hs, hdir, hm, ha, tq_push]
    · intro p hp
      by_cases hdir : S_ISDIR m = true
      · by_cases ha : pf.malloc (full_path dirpath d_name) = true
        · simp only [hdir, ha, Bool.and_self, if_true, List.mem_singleton] at hp
          subst hp
          exact ⟨hx0, m, hs, hdir⟩
        · simp [ha] at hp
      · simp [hdir] at hp
    · intro p hp
      by_cases hm : name_matches pf cfg d_name = true
      · simp only [hm, if_true, List.mem_singleton] at hp
        subst hp
        exact ⟨hx0, m, hs⟩
      · simp [hm] at hp

theorem scan_effects (pf : Platform) (cfg : Config) (dirpath : CStr) (names : List CStr)
    (st : State) :
    ∃ new lines,
      (scan pf cfg dirpath names st).queue.tasks = st.queue.tasks ++ new ∧
      (scan pf cfg dirpath names st).out = st.out ++ lines ∧
      (∀ p ∈ new, path_is_excluded cfg p = false ∧
        ∃ m, stat_entry pf cfg p = some m ∧ S_ISDIR m = true) ∧
      (∀ p ∈ lines, path_is_excluded cfg p = false ∧ ∃ m, stat_entry pf cfg p = some m) := by
  induction names generalizing st with
  | nil => exact ⟨[], [], by simp [scan], by simp [scan], by simp, by simp⟩
  | cons n ns ih =>
    obtain ⟨new1, lines1, h1, g1, hx1, hy1⟩ := process_entry_effects pf cfg dirpath n st
    obtain ⟨new2, lines2, h2, g2, hx2, hy2⟩ := ih (process_entry pf cfg dirpath st n)
    have e : scan pf cfg dirpath (n :: ns) st
        = scan pf cfg dirpath ns (process_entry pf cfg dirpath st n) := by simp [scan]
    refine ⟨new1 ++ new2, lines1 ++ lines2, ?_, ?_, ?_, ?_⟩
    · rw [e, h2, h1, List.append_assoc]
    · rw [e, g2, g1, List.append_assoc]
    · intro p hp
      rcases List.mem_append.1 hp with hp | hp
      · exact hx1 p hp
      · exact hx2 p hp
    · intro p hp
      rcases List.mem_append.1 hp with hp | hp
      · exact hy1 p hp
      · exact hy2 p hp

/-- What a call of `process_dir` adds to the queue and to the output. -/
theorem process_dir_effects (pf : Platform) (cfg : Config) (dirpath : CStr) (st : State) :
    ∃ new lines,
      (process_dir pf cfg dirpath st).queue.tasks = st.queue.tasks ++ new ∧
      (process_dir pf cfg dirpath st).out = st.out ++ lines ∧
      (∀ p ∈ new, path_is_excluded cfg p = false ∧
        ∃ m, stat_entry pf cfg p = some m ∧ S_ISDIR m = true) ∧
      (∀ p ∈ lines, path_is_excluded cfg p = false ∧ ∃ m, stat_entry pf cfg p = some m) := by
  unfold process_dir
  split
  · exact ⟨[], [], by simp, by simp, by simp, by simp⟩
  · exact scan_effects pf cfg dirpath _ st

/-- C8 fails: the scan of `/d`, which holds `x`, on which `lstat` fails, and `y`,
ends with `visited_cnt` 2; the scan of the same directory without `x` ends with
1. The entry whose `lstat` fails is counted as visited. -/
theorem stat_failure_counts_visited :
    stat_entry pf_nostat (cfg_literal (bytes "x")) (bytes "/d/x") = none ∧
    (process_dir pf_nostat (cfg_literal (bytes "x")) (bytes "/d")
        st_zero).visited_cnt = 2 ∧
    (process_dir (pf_table [(bytes "/d", [bytes ".", bytes "..", bytes "y"])]
        [(bytes "/d/y", 0o100644)] [(bytes "/d/y", 0o100644)])
      (cfg_literal (bytes "x")) (bytes "/d") st_zero).visited_cnt = 1 := by
  decide

/-- C8 as amended. An entry of a listing (not `.` or `..`, path fitting `full`,
not excluded) whose `stat`/`lstat` call fails is counted as visited, and that is
all: `found_cnt`, the output and the queue are as the entries before it left
them, the entries after it are processed from there, and nothing that
`process_dir` pushes or prints is the path of that entry. -/
theorem stat_failure_entry (pf : Platform) (cfg : Config) (dirpath d_name : CStr)
    (pre post : List CStr) (st : State)
    (hopen : pf.opendir dirpath = some (pre ++ d_name :: post))
    (hdots : is_dots d_name = false)
    (hfit : snprintf_len dirpath d_name < PATH_MAX)
    (hexcl : path_is_excluded cfg (full_path dirpath d_name) = false)
    (hstat : stat_entry pf cfg (full_path dirpath d_name) = none) :
    process_dir pf cfg dirpath st
      = scan pf cfg dirpath post
          { scan pf cfg dirpath pre st with
            visited_cnt := atomic_inc64 (scan pf cfg dirpath pre st).visited_cnt } ∧
    ∃ new lines,
      (process_dir pf cfg dirpath st).queue.tasks = st.queue.tasks ++ new ∧
      (process_dir pf cfg dirpath st).out = st.out ++ lines ∧
      full_path dirpath d_name ∉ new ∧ full_path dirpath d_name ∉ lines := by
  constructor
  · unfold process_dir
    rw [hopen]
    simp only [scan_append_cons]
    congr 1
    simp [process_entry, hdots, Nat.not_le.2 hfit, hexcl, hstat]
  · obtain ⟨new, lines, h1, h2, hx, hy⟩ := process_dir_effects pf cfg dirpath st
    refine ⟨new, lines, h1, h2, fun hmem => ?_, fun hmem => ?_⟩
    · obtain ⟨_, m, hm, _⟩ := hx _ hmem
      rw [hstat] at hm
      exact Option.noConfusion hm
    · obtain ⟨_, m, hm⟩ := hy _ hmem
      rw [hstat] at hm
      exact Option.noConfusion hm

/-- C8 amended, at the directory `/d` with entries `x` (stat fails) and `y`. -/
theorem stat_failure_entry_witness :
    (process_dir pf_nostat (cfg_literal (bytes "x")) (bytes "/d") st_zero)
      = { st_zero with visited_cnt := 2 } := by
  rw [(stat_failure_entry pf_nostat (cfg_literal (bytes "x")) (bytes "/d") (bytes "x")
    [bytes ".", bytes ".."] [bytes "y"] st_zero (by decide) (by decide) (by decide)
    (by decide) (by decide)).1]
  decide

theorem process_entry_closed (pf : Platform) (cfg : Config) (dirpath d_name : CStr)
    (st : State) :
    (process_entry pf cfg dirpath st d_name).queue.closed = st.queue.closed := by
  unfold process_entry tq_push
  repeat' split
  all_goals simp

theorem tq_pop_closed (q q1 : TaskQueue) (p : CStr) (h : tq_pop q = .task p q1) :
    q1.closed = q.closed := by
  obtain ⟨tasks, closed⟩ := q
  cases tasks with
  | nil => cases closed <;> simp [tq_pop] at h
  | cons a rest =>
    simp only [tq_pop, reduceCtorEq, false_and, if_false, PopResult.task.injEq] at h
    rw [← h.2]

/-- A worker step neither changes `closed` nor moves the driver. -/
theorem step_worker_keeps (pf : Platform) (cfg : Config) (s s1 : Sys) (i : Nat)
    (h : step_worker pf cfg s i = some s1) :
    s1.st.queue.closed = s.st.queue.closed ∧ s1.driver = s.driver := by
  unfold step_worker at h
  split at h
  · simp at h
  · simp at h
  · split at h
    · simp at h
    · simp only [Option.some.injEq] at h
      subst h
      simp
    · rename_i p q hpop
      have hq := tq_pop_closed _ _ _ hpop
      split at h <;>
        (simp only [Option.some.injEq] at h; subst h; simp [hq])
  · simp only [Option.some.injEq] at h
    subst h
    simp
  · simp only [Option.some.injEq] at h
    subst h
    simp [process_entry_closed]

/-- Each step keeps: `closed` is set exactly when the driver is past line 329. -/
theorem step_closed_inv (pf : Platform) (cfg : Config) (s s1 : Sys) (t : Thread)
    (h : step pf cfg s t = some s1)
    (hinv : s.st.queue.closed = s.driver.past_close) :
    s1.st.queue.closed = s1.driver.past_close := by
  cases t with
  | worker i =>
    obtain ⟨h1, h2⟩ := step_worker_keeps pf cfg s s1 i h
    rw [h1, h2, hinv]
  | driver =>
    simp only [step, step_driver] at h
    split at h
    · simp only [Option.some.injEq] at h
      subst h
      simp [tq_init, DriverPc.past_close]
    · rename_i hd
      simp only [Option.some.injEq] at h
      subst h
      simp only [tq_push]
      split <;> simp [DriverPc.past_close, hinv, hd]
    · rename_i i hd
      split at h <;>
        (simp only [Option.some.injEq] at h; subst h
         simp [DriverPc.past_close, hinv, hd])
    · rename_i hd
      simp only [Option.some.injEq] at h
      subst h
      simp [DriverPc.past_close, hinv, hd]
    · simp only [Option.some.injEq] at h
      subst h
      simp [tq_close, DriverPc.past_close]
    · rename_i i hd
      split at h
      · split at h
        · simp only [Option.some.injEq] at h
          subst h
          simp [DriverPc.past_close, hinv, hd]
        · simp at h
      · simp only [Option.some.injEq] at h
        subst h
        simp [DriverPc.past_close, hinv, hd]
    · simp at h

theorem exec_closed_inv (pf : Platform) (cfg : Config) (sched : List Thread) (s : Sys)
    (hinv : s.st.queue.closed = s.driver.past_close) :
    (exec pf cfg sched s).st.queue.closed = (exec pf cfg sched s).driver.past_close := by
  induction sched generalizing s with
  | nil => exact hinv
  | cons t sched ih =>
    simp only [exec]
    apply ih
    cases hstep : step pf cfg s t with
    | none => simpa using hinv
    | some s1 => simpa using step_closed_inv pf cfg s s1 t hstep hinv

/-- C1 fails. With `thread_count` 0 the only run of the driver closes the queue
while the root `Task` is still queued; with one worker, a schedule in which the
driver's sleep returns during the scan of `/root` closes the queue with that scan
in flight and `/root/sub` queued. -/
theorem closed_with_work_outstanding :
    ((exec pf_fixture { cfg_fixture with thread_count := 0 }
        [.driver, .driver, .driver, .driver, .driver] Sys.start).st.queue
      = { tasks := [bytes "/root"], closed := true } ∧
     outstanding (exec pf_fixture { cfg_fixture with thread_count := 0 }
        [.driver, .driver, .driver, .driver, .driver] Sys.start) = 1) ∧
    ((exec pf_fixture cfg_fixture
        [.driver, .driver, .driver, .driver, .worker 0, .worker 0, .worker 0, .worker 0,
         .worker 0, .driver, .driver] Sys.start).st.queue
      = { tasks := [bytes "/root/sub"], closed := true } ∧
     in_flight (exec pf_fixture cfg_fixture
        [.driver, .driver, .driver, .driver, .worker 0, .worker 0, .worker 0, .worker 0,
         .worker 0, .driver, .driver] Sys.start) = 1 ∧
     outstanding (exec pf_fixture cfg_fixture
        [.driver, .driver, .driver, .driver, .worker 0, .worker 0, .worker 0, .worker 0,
         .worker 0, .driver, .driver] Sys.start) = 2) := by
  decide

/-- C1 as amended. The queue is closed by the driver alone, at the `tq_close`
that follows its `sleep`, whatever work is outstanding: in every execution
`closed` is set exactly when the driver is past that call; the call can always be
taken once the driver stands before it, and it leaves queued `Task`s and scans in
flight as they are; the driver comes to stand before it only by returning from
`sleep`, and `sleep` returns whatever the queue holds and the workers do. -/
theorem closed_iff_driver_past_close (pf : Platform) (cfg : Config) :
    (∀ sched : List Thread,
      (exec pf cfg sched Sys.start).st.queue.closed
        = (exec pf cfg sched Sys.start).driver.past_close) ∧
    (∀ s : Sys, s.driver = .close →
      ∃ s1, step pf cfg s .driver = some s1 ∧ s1.st.queue.closed = true ∧
        s1.st.queue.tasks = s.st.queue.tasks ∧ s1.workers = s.workers ∧
        outstanding s1 = outstanding s) ∧
    (∀ (s s1 : Sys) (t : Thread), step pf cfg s t = some s1 → s1.driver = .close →
      s.driver = .close ∨ (t = .driver ∧ s.driver = .asleep)) ∧
    (∀ s : Sys, s.driver = .asleep →
      step pf cfg s .driver = some { s with driver := .close }) := by
  refine ⟨fun sched => exec_closed_inv pf cfg sched Sys.start rfl, ?_, ?_,
    fun s hs => by simp only [step, step_driver, hs]⟩
  · intro s hs
    refine ⟨{ s with st := { s.st with queue := tq_close s.st.queue }, driver := .join 0 },
      by simp only [step, step_driver, hs], ?_⟩
    simp [tq_close, outstanding, in_flight]
  · intro s s1 t h hs1
    cases t with
    | worker i =>
      left
      rw [← (step_worker_keeps pf cfg s s1 i h).2]
      exact hs1
    | driver =>
      simp only [step, step_driver] at h
      split at h
      · simp only [Option.some.injEq] at h; subst h; simp at hs1
      · simp only [Option.some.injEq] at h; subst h; simp at hs1
      · split at h <;> (simp only [Option.some.injEq] at h; subst h; simp at hs1)
      · rename_i hd
        exact Or.inr ⟨rfl, hd⟩
      · simp only [Option.some.injEq] at h; subst h; simp at hs1
      · split at h
        · split at h
          · simp only [Option.some.injEq] at h; subst h; simp at hs1
          · simp at h
        · simp only [Option.some.injEq] at h; subst h; simp at hs1
      · simp at h

/-! ## Scan of one directory -/

theorem advance_zero (st : State) : st.advance [] 0 0 [] = st := by
  simp [State.advance]

theorem advance_advance (st : State) (p1 p2 : List CStr) (v1 v2 m1 m2 : Nat)
    (l1 l2 : List CStr) :
    (st.advance p1 v1 m1 l1).advance p2 v2 m2 l2
      = st.advance (p1 ++ p2) (v2 + v1) (m2 + m1) (l1 ++ l2) := by
  simp [State.advance, Function.iterate_add_apply]

theorem process_entry_dots (pf : Platform) (cfg : Config) (dirpath d_name : CStr)
    (st : State) (h : is_dots d_name = true) :
    process_entry pf cfg dirpath st d_name = st := by
  simp [process_entry, h]

/-- The `.` and `..` entries of a listing change nothing. -/
theorem scan_filter_dots (pf : Platform) (cfg : Config) (dirpath : CStr)
    (names : List CStr) (st : State) :
    scan pf cfg dirpath names st
      = scan pf cfg dirpath (names.filter (fun n => !is_dots n)) st := by
  induction names generalizing st with
  | nil => rfl
  | cons n ns ih =>
    by_cases h : is_dots n = true
    · have e1 : scan pf cfg dirpath (n :: ns) st = scan pf cfg dirpath ns st := by
        simp [scan, process_entry_dots pf cfg dirpath n st h]
      rw [e1, ih]
      simp [List.filter, h]
    · have h0 : is_dots n = false := by simpa using h
      have e1 : scan pf cfg dirpath (n :: ns) st
          = scan pf cfg dirpath ns (process_entry pf cfg dirpath st n) := by
        simp [scan]
      rw [e1, ih]
      simp [List.filter, h0, scan]

theorem under_excluded_iff (cfg : Config) (p : CStr) :
    under_excluded cfg p = true ↔ ∃ e ∈ cfg.excludes, e <+: p := by
  simp [under_excluded, List.any_eq_true]

/-- When no exclude string is empty, `path_is_excluded` decides "under an excluded
prefix". -/
theorem excluded_agrees (cfg : Config) (h : ∀ e ∈ cfg.excludes, e ≠ [] ∧ 0 ∉ e) (p : CStr) :
    path_is_excluded cfg p = under_excluded cfg p := by
  rw [Bool.eq_iff_iff, under_excluded_iff]
  unfold path_is_excluded
  rw [excluded_loop_iff cfg.excludes p (fun e he => (h e he).2)]
  constructor
  · rintro ⟨e, he, _, hp⟩
    exact ⟨e, he, hp⟩
  · rintro ⟨e, he, hp⟩
    exact ⟨e, he, (h e he).1, hp⟩

theorem stat_ok_iff (pf : Platform) (cfg : Config) (full : CStr) (b : Bool) :
    stat_ok pf cfg full b = true ↔ ∃ m, stat_entry pf cfg full = some m ∧ S_ISDIR m = b := by
  unfold stat_ok
  cases stat_entry pf cfg full <;> simp

/-- The loop body leaves the state as it is on an excluded entry. -/
theorem process_entry_excluded (pf : Platform) (cfg : Config) (dirpath d_name : CStr)
    (st : State) (hx : path_is_excluded cfg (full_path dirpath d_name) = true) :
    process_entry pf cfg dirpath st d_name = st := by
  unfold process_entry
  split
  · rfl
  · split
    · rfl
    · simp [hx]

/-- Effect of the loop body on an entry that is not `.` or `..` and not excluded,
whose path fits and whose `stat` call succeeds, allocation succeeding. -/
theorem process_entry_eq (pf : Platform) (cfg : Config) (dirpath d_name : CStr)
    (st : State) (m : Nat) (hdots : is_dots d_name = false)
    (hfit : snprintf_len dirpath d_name < PATH_MAX)
    (hx : path_is_excluded cfg (full_path dirpath d_name) = false)
    (hstat : stat_entry pf cfg (full_path dirpath d_name) = some m)
    (halloc : pf.malloc (full_path dirpath d_name) = true) :
    process_entry pf cfg dirpath st d_name
      = st.advance (if S_ISDIR m then [full_path dirpath d_name] else []) 1
          (if name_matches pf cfg d_name then 1 else 0)
          (if name_matches pf cfg d_name then [full_path dirpath d_name] else []) := by
  by_cases hm : name_matches pf cfg d_name = true <;> by_cases hd : S_ISDIR m = true <;>
    simp [process_entry, hdots, Nat.not_le.2 hfit, hx, hstat, hm, hd, halloc,
      State.advance, tq_push]

/-- The scan of a directory whose entries are those of `f`. -/
theorem scan_forest (pf : Platform) (cfg : Config) (dirpath : CStr) (f : Forest)
    (st : State) (hagree : ∀ p, path_is_excluded cfg p = under_excluded cfg p)
    (halloc : ∀ p, pf.malloc p = true)
    (hok : tree_ok pf cfg dirpath f = true)
    (hnd : ∀ n ∈ f.names, is_dots n = false) :
    scan pf cfg dirpath f.names st
      = st.advance ((subdirs cfg dirpath f).map Prod.fst) (direct_visited cfg dirpath f)
          (direct_matched pf cfg dirpath f) (direct_paths pf cfg dirpath f) := by
  induction f generalizing st with
  | nil => simp [Forest.names, scan, subdirs, direct_visited, direct_matched, direct_paths,
      advance_zero]
  | file name rest ih =>
    simp only [tree_ok, Bool.and_eq_true, Bool.or_eq_true, decide_eq_true_eq] at hok
    obtain ⟨hent, hrest⟩ := hok
    have hdots : is_dots name = false := hnd name (by simp [Forest.names])
    have hnd1 : ∀ n ∈ rest.names, is_dots n = false :=
      fun n hn => hnd n (by simp [Forest.names, hn])
    have e1 : scan pf cfg dirpath (Forest.file name rest).names st
        = scan pf cfg dirpath rest.names (process_entry pf cfg dirpath st name) := by
      simp [scan, Forest.names]
    rw [e1, ih _ hrest hnd1]
    by_cases hu : under_excluded cfg (full_path dirpath name) = true
    · rw [process_entry_excluded pf cfg dirpath name st (by rw [hagree]; exact hu)]
      simp [subdirs, direct_visited, direct_matched, direct_paths, is_match, hu]
    · have hu0 : under_excluded cfg (full_path dirpath name) = false := by simpa using hu
      rcases hent with hent | ⟨hfit, hstat⟩
      · exact absurd hent hu
      · obtain ⟨m, hs, hdir⟩ := (stat_ok_iff pf cfg _ false).1 hstat
        rw [process_entry_eq pf cfg dirpath name st m hdots hfit (by rw [hagree]; exact hu0) hs
          (halloc _), advance_advance]
        simp [subdirs, direct_visited, direct_matched, direct_paths, is_match, hu0, hdir]
  | dir name kids rest _ ih =>
    simp only [tree_ok, Bool.and_eq_true, Bool.or_eq_true, decide_eq_true_eq] at hok
    obtain ⟨hent, hrest⟩ := hok
    have hdots : is_dots name = false := hnd name (by simp [Forest.names])
    have hnd1 : ∀ n ∈ rest.names, is_dots n = false :=
      fun n hn => hnd n (by simp [Forest.names, hn])
    have e1 : scan pf cfg dirpath (Forest.dir name kids rest).names st
        = scan pf cfg dirpath rest.names (process_entry pf cfg dirpath st name) := by
      simp [scan, Forest.names]
    rw [e1, ih _ hrest hnd1]
    by_cases hu : under_excluded cfg (full_path dirpath name) = true
    · rw [process_entry_excluded pf cfg dirpath name st (by rw [hagree]; exact hu)]
      simp [subdirs, direct_visited, direct_matched, direct_paths, is_match, hu]
    · have hu0 : under_excluded cfg (full_path dirpath name) = false := by simpa using hu
      rcases hent with hent | ⟨⟨⟨hfit, hstat⟩, _⟩, _⟩
      · exact absurd hent hu
      · obtain ⟨m, hs, hdir⟩ := (stat_ok_iff pf cfg _ true).1 hstat
        rw [process_entry_eq pf cfg dirpath name st m hdots hfit (by rw [hagree]; exact hu0) hs
          (halloc _), advance_advance]
        simp [subdirs, direct_visited, direct_matched, direct_paths, is_match, hu0, hdir]

/-- The listing of a directory has the names of `f` once `.` and `..` are left
out, and none of those names is `.` or `..`. -/
theorem listing_ok_names (pf : Platform) (dirpath : CStr) (f : Forest)
    (h : listing_ok pf dirpath f = true) :
    ∃ names, pf.opendir dirpath = some names ∧
      names.filter (fun n => !is_dots n) = f.names ∧
      ∀ n ∈ f.names, is_dots n = false := by
  unfold listing_ok at h
  cases ho : pf.opendir dirpath with
  | none => simp [ho] at h
  | some names =>
    simp only [ho, beq_iff_eq] at h
    refine ⟨names, rfl, h, ?_⟩
    intro n hn
    rw [← h, List.mem_filter] at hn
    simpa using hn.2

/-- Function `process_dir` on a directory whose entries are those of `f`. -/
theorem process_dir_forest (pf : Platform) (cfg : Config) (dirpath : CStr) (f : Forest)
    (st : State) (hagree : ∀ p, path_is_excluded cfg p = under_excluded cfg p)
    (halloc : ∀ p, pf.malloc p = true)
    (hl : listing_ok pf dirpath f = true)
    (hok : tree_ok pf cfg dirpath f = true) :
    process_dir pf cfg dirpath st
      = st.advance ((subdirs cfg dirpath f).map Prod.fst) (direct_visited cfg dirpath f)
          (direct_matched pf cfg dirpath f) (direct_paths pf cfg dirpath f) := by
  obtain ⟨names, ho, hf, hnd⟩ := listing_ok_names pf dirpath f hl
  unfold process_dir
  rw [ho]
  simp only
  rw [scan_filter_dots, hf, scan_forest pf cfg dirpath f st hagree halloc hok hnd]

/-! ## Counting over the tree -/

theorem excluded_below (cfg : Config) (dirpath name : CStr)
    (h : under_excluded cfg dirpath = true) :
    under_excluded cfg (full_path dirpath name) = true := by
  rw [under_excluded_iff] at h ⊢
  obtain ⟨e, he, hp⟩ := h
  refine ⟨e, he, ?_⟩
  unfold full_path
  rw [List.append_assoc]
  exact hp.trans (List.prefix_append _ _)

theorem is_match_excluded (pf : Platform) (cfg : Config) (dirpath name : CStr)
    (h : under_excluded cfg dirpath = true) : is_match pf cfg dirpath name = false := by
  simp [is_match, excluded_below cfg dirpath name h]

/-- Below an excluded directory nothing is counted. -/
theorem count_excluded (pf : Platform) (cfg : Config) (dirpath : CStr) (f : Forest)
    (h : under_excluded cfg dirpath = true) :
    count_visited cfg dirpath f = 0 ∧ count_matched pf cfg dirpath f = 0 ∧
      matched_paths pf cfg dirpath f = [] := by
  induction f generalizing dirpath with
  | nil => simp [count_visited, count_matched, matched_paths]
  | file name rest ih =>
    obtain ⟨h1, h2, h3⟩ := ih dirpath h
    simp [count_visited, count_matched, matched_paths, h1, h2, h3,
      excluded_below cfg dirpath name h, is_match_excluded pf cfg dirpath name h]
  | dir name kids rest ihk ih =>
    obtain ⟨h1, h2, h3⟩ := ih dirpath h
    obtain ⟨k1, k2, k3⟩ := ihk (full_path dirpath name) (excluded_below cfg dirpath name h)
    simp [count_visited, count_matched, matched_paths, h1, h2, h3, k1, k2, k3,
      excluded_below cfg dirpath name h, is_match_excluded pf cfg dirpath name h]

theorem pend_visited_append (cfg : Config) (a b : List (CStr × Forest)) :
    pend_visited cfg (a ++ b) = pend_visited cfg a + pend_visited cfg b := by
  simp [pend_visited]

theorem pend_matched_append (pf : Platform) (cfg : Config) (a b : List (CStr × Forest)) :
    pend_matched pf cfg (a ++ b) = pend_matched pf cfg a + pend_matched pf cfg b := by
  simp [pend_matched]

theorem pend_weight_append (a b : List (CStr × Forest)) :
    pend_weight (a ++ b) = pend_weight a + pend_weight b := by
  simp [pend_weight]

theorem pend_paths_append (pf : Platform) (cfg : Config) (a b : List (CStr × Forest)) :
    pend_paths pf cfg (a ++ b) = pend_paths pf cfg a ++ pend_paths pf cfg b := by
  induction a with
  | nil => simp [pend_paths]
  | cons x a ih => simp [pend_paths, ih]

/-- The entries counted below a directory are those of the directory itself plus
those below its subdirectories that are not excluded. -/
theorem count_visited_split (pf : Platform) (cfg : Config) (dirpath : CStr) (f : Forest) :
    count_visited cfg dirpath f
      = direct_visited cfg dirpath f + pend_visited cfg (subdirs cfg dirpath f) := by
  induction f with
  | nil => simp [count_visited, direct_visited, subdirs, pend_visited]
  | file name rest ih =>
    simp only [count_visited, direct_visited, subdirs, ih]
    omega
  | dir name kids rest _ ih =>
    simp only [count_visited, direct_visited, subdirs, ih, pend_visited_append]
    by_cases hx : under_excluded cfg (full_path dirpath name) = true
    · simp only [hx, if_true, pend_visited, List.map_nil, List.sum_nil,
        (count_excluded pf cfg _ kids hx).1]
      omega
    · have hx0 : under_excluded cfg (full_path dirpath name) = false := by simpa using hx
      simp only [hx0, Bool.false_eq_true, if_false, pend_visited, List.map_cons, List.map_nil,
        List.sum_cons, List.sum_nil]
      omega

theorem count_matched_split (pf : Platform) (cfg : Config) (dirpath : CStr) (f : Forest) :
    count_matched pf cfg dirpath f
      = direct_matched pf cfg dirpath f + pend_matched pf cfg (subdirs cfg dirpath f) := by
  induction f with
  | nil => simp [count_matched, direct_matched, subdirs, pend_matched]
  | file name rest ih =>
    simp only [count_matched, direct_matched, subdirs, ih]
    omega
  | dir name kids rest _ ih =>
    simp only [count_matched, direct_matched, subdirs, ih, pend_matched_append]
    by_cases hx : under_excluded cfg (full_path dirpath name) = true
    · simp only [hx, if_true, pend_matched, List.map_nil, List.sum_nil,
        (count_excluded pf cfg _ kids hx).2.1]
      omega
    · have hx0 : under_excluded cfg (full_path dirpath name) = false := by simpa using hx
      simp only [hx0, Bool.false_eq_true, if_false, pend_matched, List.map_cons, List.map_nil,
        List.sum_cons, List.sum_nil]
      omega

theorem matched_paths_split (pf : Platform) (cfg : Config) (dirpath : CStr) (f : Forest) :
    (matched_paths pf cfg dirpath f).Perm
      (direct_paths pf cfg dirpath f ++ pend_paths pf cfg (subdirs cfg dirpath f)) := by
  induction f with
  | nil => simp [matched_paths, direct_paths, subdirs, pend_paths]
  | file name rest ih =>
    simp only [matched_paths, direct_paths, subdirs, List.append_assoc]
    exact List.Perm.append_left _ ih
  | dir name kids rest _ ih =>
    simp only [matched_paths, direct_paths, subdirs, pend_paths_append, List.append_assoc]
    apply List.Perm.append_left
    by_cases hx : under_excluded cfg (full_path dirpath name) = true
    · simp only [hx, if_true, pend_paths, (count_excluded pf cfg _ kids hx).2.2,
        List.nil_append]
      exact ih
    · have hx0 : under_excluded cfg (full_path dirpath name) = false := by simpa using hx
      simp only [hx0, Bool.false_eq_true, if_false, pend_paths, List.append_nil]
      refine List.Perm.trans (List.Perm.append_left _ ih) ?_
      rw [← List.append_assoc, ← List.append_assoc]
      exact List.Perm.append_right _ List.perm_append_comm

theorem subdirs_weight (cfg : Config) (dirpath : CStr) (f : Forest) :
    pend_weight (subdirs cfg dirpath f) ≤ f.size := by
  induction f with
  | nil => simp [subdirs, pend_weight]
  | file name rest ih =>
    simp only [subdirs, Forest.size]
    omega
  | dir name kids rest _ ih =>
    simp only [subdirs, Forest.size, pend_weight_append]
    by_cases hx : under_excluded cfg (full_path dirpath name) = true
    · simp only [hx, if_true, pend_weight, List.map_nil, List.sum_nil]
      simp only [pend_weight] at ih
      omega
    · have hx0 : under_excluded cfg (full_path dirpath name) = false := by simpa using hx
      simp only [hx0, Bool.false_eq_true, if_false, pend_weight, List.map_cons, List.map_nil,
        List.sum_cons, List.sum_nil]
      simp only [pend_weight] at ih
      omega

theorem subdirs_ok (pf : Platform) (cfg : Config) (dirpath : CStr) (f : Forest)
    (hok : tree_ok pf cfg dirpath f = true) :
    ∀ x ∈ subdirs cfg dirpath f, listing_ok pf x.1 x.2 = true ∧ tree_ok pf cfg x.1 x.2 = true := by
  induction f with
  | nil => simp [subdirs]
  | file name rest ih =>
    simp only [tree_ok, Bool.and_eq_true] at hok
    simpa [subdirs] using ih hok.2
  | dir name kids rest _ ih =>
    simp only [tree_ok, Bool.and_eq_true, Bool.or_eq_true] at hok
    obtain ⟨hent, hrest⟩ := hok
    intro x hx
    simp only [subdirs, List.mem_append] at hx
    rcases hx with hx | hx
    · split at hx
      · simp at hx
      · rename_i hu
        simp only [List.mem_singleton] at hx
        subst hx
        rcases hent with hent | ⟨⟨_, hl⟩, hk⟩
        · exact absurd hent hu
        · exact ⟨hl, hk⟩
    · exact ih hrest x hx

theorem count_matched_le (pf : Platform) (cfg : Config) (dirpath : CStr) (f : Forest) :
    count_matched pf cfg dirpath f ≤ count_visited cfg dirpath f := by
  induction f generalizing dirpath with
  | nil => simp [count_matched, count_visited]
  | file name rest ih =>
    have := ih dirpath
    simp only [count_matched, count_visited, is_match]
    rcases Bool.eq_false_or_eq_true (under_excluded cfg (full_path dirpath name))
      with hx | hx
    · simp only [hx, Bool.not_true, Bool.false_and, Bool.false_eq_true, if_false, if_true]
      omega
    · simp only [hx, Bool.not_false, Bool.true_and, Bool.false_eq_true, if_false]
      split <;> omega
  | dir name kids rest ihk ih =>
    have := ih dirpath
    have := ihk (full_path dirpath name)
    simp only [count_matched, count_visited, is_match]
    rcases Bool.eq_false_or_eq_true (under_excluded cfg (full_path dirpath name))
      with hx | hx
    · simp only [hx, Bool.not_true, Bool.false_and, Bool.false_eq_true, if_false, if_true]
      omega
    · simp only [hx, Bool.not_false, Bool.true_and, Bool.false_eq_true, if_false]
      split <;> omega

/-! ## Counters -/

theorem wrap64_inc (x : Int) : atomic_inc64 (wrap64 x) = wrap64 (x + 1) := by
  unfold atomic_inc64 wrap64
  omega

theorem iterate_inc (n : Nat) : atomic_inc64^[n] 0 = wrap64 n := by
  induction n with
  | zero => simp [wrap64]
  | succ n ih =>
    rw [Function.iterate_succ_apply', ih, wrap64_inc]
    simp

theorem wrap64_small (n : Nat) (h : n < 9223372036854775808) : wrap64 n = n := by
  unfold wrap64
  omega

/-! ## A full run of one worker -/

/-- On an empty queue the worker stops at once: it returns when the queue is
closed and waits in `tq_pop` when it is open. -/
theorem worker_empty (pf : Platform) (cfg : Config) (st : State) (fuel : Nat)
    (h : st.queue.tasks = []) :
    worker pf cfg (fuel + 1) st
      = some (if st.queue.closed then .returned else .waiting, st) := by
  obtain ⟨⟨tasks, closed⟩, v, m, out⟩ := st
  simp only at h
  subst h
  cases closed <;> simp [worker, tq_pop]

/-- The worker started with the directories `pend` queued, the file system below
each being the tree paired with it, scans them all and stops with the queue
empty, having counted and printed what the trees hold. -/
theorem worker_drains (pf : Platform) (cfg : Config) (n : Nat)
    (hagree : ∀ p, path_is_excluded cfg p = under_excluded cfg p)
    (halloc : ∀ p, pf.malloc p = true) :
    ∀ (pend : List (CStr × Forest)) (st : State),
      pend_weight pend ≤ n →
      (∀ x ∈ pend, listing_ok pf x.1 x.2 = true ∧ tree_ok pf cfg x.1 x.2 = true) →
      st.queue.tasks = pend.map Prod.fst →
      ∃ lines, lines.Perm (pend_paths pf cfg pend) ∧
        ∀ fuel, n + 1 ≤ fuel →
          worker pf cfg fuel st
            = some (if st.queue.closed then .returned else .waiting,
                { queue := { tasks := [], closed := st.queue.closed },
                  visited_cnt := atomic_inc64^[pend_visited cfg pend] st.visited_cnt,
                  found_cnt := atomic_inc64^[pend_matched pf cfg pend] st.found_cnt,
                  out := st.out ++ lines }) := by
  induction n with
  | zero =>
    intro pend st hw _ htasks
    cases pend with
    | nil =>
      refine ⟨[], by simp [pend_paths], ?_⟩
      intro fuel hfuel
      obtain ⟨k, rfl⟩ : ∃ k, fuel = k + 1 := ⟨fuel - 1, by omega⟩
      rw [worker_empty pf cfg st k (by simpa using htasks)]
      obtain ⟨⟨tasks, closed⟩, v, m, out⟩ := st
      simp only [List.map_nil] at htasks
      subst htasks
      simp [pend_visited, pend_matched]
    | cons x rest =>
      simp [pend_weight] at hw
  | succ n ih =>
    intro pend st hw hok htasks
    cases pend with
    | nil =>
      refine ⟨[], by simp [pend_paths], ?_⟩
      intro fuel hfuel
      obtain ⟨k, rfl⟩ : ∃ k, fuel = k + 1 := ⟨fuel - 1, by omega⟩
      rw [worker_empty pf cfg st k (by simpa using htasks)]
      obtain ⟨⟨tasks, closed⟩, v, m, out⟩ := st
      simp only [List.map_nil] at htasks
      subst htasks
      simp [pend_visited, pend_matched]
    | cons x rest =>
      obtain ⟨dirpath, f⟩ := x
      obtain ⟨⟨tasks, closed⟩, v, m, out⟩ := st
      simp only [List.map_cons] at htasks
      subst htasks
      obtain ⟨hl, htree⟩ := hok (dirpath, f) (by simp)
      have hokrest : ∀ x ∈ rest ++ subdirs cfg dirpath f,
          listing_ok pf x.1 x.2 = true ∧ tree_ok pf cfg x.1 x.2 = true := by
        intro x hx
        rcases List.mem_append.1 hx with hx | hx
        · exact hok x (List.mem_cons_of_mem _ hx)
        · exact subdirs_ok pf cfg dirpath f htree x hx
      have hwrest : pend_weight (rest ++ subdirs cfg dirpath f) ≤ n := by
        have h1 := subdirs_weight cfg dirpath f
        rw [pend_weight_append]
        simp only [pend_weight, List.map_cons, List.sum_cons] at hw
        simp only [pend_weight] at h1 ⊢
        omega
      obtain ⟨lines1, hperm, hrun⟩ := ih (rest ++ subdirs cfg dirpath f)
        ((State.mk { tasks := rest.map Prod.fst, closed := closed } v m out).advance
          ((subdirs cfg dirpath f).map Prod.fst) (direct_visited cfg dirpath f)
          (direct_matched pf cfg dirpath f) (direct_paths pf cfg dirpath f))
        hwrest hokrest (by simp [State.advance])
      refine ⟨direct_paths pf cfg dirpath f ++ lines1, ?_, ?_⟩
      · simp only [pend_paths]
        refine List.Perm.trans (List.Perm.append_left _ hperm) ?_
        rw [pend_paths_append]
        refine List.Perm.trans ?_
          (List.Perm.append_right _ (matched_paths_split pf cfg dirpath f).symm)
        rw [List.append_assoc]
        exact List.Perm.append_left _ List.perm_append_comm
      · intro fuel hfuel
        obtain ⟨k, rfl⟩ : ∃ k, fuel = k + 1 := ⟨fuel - 1, by omega⟩
        have hk : n + 1 ≤ k := by omega
        have hstep : worker pf cfg (k + 1) (State.mk
              { tasks := dirpath :: rest.map Prod.fst, closed := closed } v m out)
            = worker pf cfg k (process_dir pf cfg dirpath
                (State.mk { tasks := rest.map Prod.fst, closed := closed } v m out)) := by
          simp [worker, tq_pop]
        rw [hstep, process_dir_forest pf cfg dirpath f _ hagree halloc hl htree, hrun k hk]
        have hv : pend_visited cfg ((dirpath, f) :: rest)
            = pend_visited cfg (rest ++ subdirs cfg dirpath f) + direct_visited cfg dirpath f := by
          rw [pend_visited_append]
          simp only [pend_visited, List.map_cons, List.sum_cons]
          have := count_visited_split pf cfg dirpath f
          simp only [pend_visited] at this
          omega
        have hm : pend_matched pf cfg ((dirpath, f) :: rest)
            = pend_matched pf cfg (rest ++ subdirs cfg dirpath f)
              + direct_matched pf cfg dirpath f := by
          rw [pend_matched_append]
          simp only [pend_matched, List.map_cons, List.sum_cons]
          have := count_matched_split pf cfg dirpath f
          simp only [pend_matched] at this
          omega
        rw [hv, hm]
        simp [State.advance, Function.iterate_add_apply]

set_option maxRecDepth 8192 in
/-- C2 fails in three ways, each on the fixture
`/root/{a.txt, sub/b.TXT, sub/a.txt, excluded/a.txt}` with pattern `a.txt`, where
every full path is short and every `stat` call succeeds. With the empty string
as exclude string every path is under an excluded prefix, so no entry is to be
counted, yet the run ends with `visited_cnt` 6 and `found_cnt` 3. With
`/root/excluded` excluded and `/root/sub` unreadable, four entries are not under
an excluded prefix and the run ends with `visited_cnt` 2. With the allocation of
the `Task` for `/root/sub` failing, the run ends with `visited_cnt` 2 as well. -/
theorem full_run_miscounts :
    (stats_ok pf_fixture cfg_empty_exclude (bytes "/root") forest_fixture = true ∧
     count_visited cfg_empty_exclude (bytes "/root") forest_fixture = 0 ∧
     count_matched pf_fixture cfg_empty_exclude (bytes "/root") forest_fixture = 0 ∧
     worker pf_fixture cfg_empty_exclude 8 (seeded pf_fixture cfg_empty_exclude)
       = some (.waiting,
           { queue := { tasks := [], closed := false }, visited_cnt := 6, found_cnt := 3,
             out := [bytes "/root/a.txt", bytes "/root/sub/a.txt",
                     bytes "/root/excluded/a.txt"] })) ∧
    (stats_ok pf_unreadable cfg_fixture (bytes "/root") forest_fixture = true ∧
     count_visited cfg_fixture (bytes "/root") forest_fixture = 4 ∧
     count_matched pf_unreadable cfg_fixture (bytes "/root") forest_fixture = 2 ∧
     worker pf_unreadable cfg_fixture 8 (seeded pf_unreadable cfg_fixture)
       = some (.waiting,
           { queue := { tasks := [], closed := false }, visited_cnt := 2, found_cnt := 1,
             out := [bytes "/root/a.txt"] })) ∧
    (stats_ok pf_nomem cfg_fixture (bytes "/root") forest_fixture = true ∧
     count_visited cfg_fixture (bytes "/root") forest_fixture = 4 ∧
     count_matched pf_nomem cfg_fixture (bytes "/root") forest_fixture = 2 ∧
     worker pf_nomem cfg_fixture 8 (seeded pf_nomem cfg_fixture)
       = some (.waiting,
           { queue := { tasks := [], closed := false }, visited_cnt := 2, found_cnt := 1,
             out := [bytes "/root/a.txt"] })) := by
  refine ⟨⟨?_, ?_, ?_, ?_⟩, ⟨?_, ?_, ?_, ?_⟩, ⟨?_, ?_, ?_, ?_⟩⟩ <;> decide

/-- C2 as amended. Let the file system below `start_path` be a finite tree in
which every entry not under an excluded prefix has a full path shorter than
`PATH_MAX` and a succeeding `stat` call, and every directory not under an
excluded prefix, like the root, can be opened; let no exclude string be empty
and every allocation of a `Task` succeed. Then a run that pushes the root and
lets one worker pop and scan until the queue is empty terminates: the worker
ends waiting on the empty queue with `visited_cnt` the number of entries whose
full path is not under an excluded prefix and `found_cnt` the number of those
whose base name satisfies `name_matches` (as 64-bit values, hence those very
numbers below 2^63), having printed exactly the full paths of the latter. No
scan ever pushes a path under an excluded prefix. -/
theorem full_run_counts (pf : Platform) (cfg : Config) (f : Forest)
    (hfs : fs_is pf cfg cfg.start_path f = true)
    (hexcl : ∀ e ∈ cfg.excludes, e ≠ [] ∧ 0 ∉ e)
    (halloc : ∀ p, pf.malloc p = true) :
    (∃ final : State,
      (∀ fuel, f.size + 2 ≤ fuel →
        worker pf cfg fuel (seeded pf cfg) = some (.waiting, final)) ∧
      final.queue = { tasks := [], closed := false } ∧
      final.visited_cnt = wrap64 (count_visited cfg cfg.start_path f) ∧
      final.found_cnt = wrap64 (count_matched pf cfg cfg.start_path f) ∧
      (count_visited cfg cfg.start_path f < 9223372036854775808 →
        final.visited_cnt = count_visited cfg cfg.start_path f ∧
        final.found_cnt = count_matched pf cfg cfg.start_path f) ∧
      final.out.Perm (matched_paths pf cfg cfg.start_path f)) ∧
    (∀ (dirpath : CStr) (st : State),
      ∃ new, (process_dir pf cfg dirpath st).queue.tasks = st.queue.tasks ++ new ∧
        ∀ p ∈ new, under_excluded cfg p = false) := by
  have hagree := excluded_agrees cfg hexcl
  refine ⟨?_, fun dirpath st => ?_⟩
  swap
  · obtain ⟨new, _, h1, _, hx, _⟩ := process_dir_effects pf cfg dirpath st
    exact ⟨new, h1, fun p hp => by rw [← hagree]; exact (hx p hp).1⟩
  simp only [fs_is, Bool.and_eq_true] at hfs
  obtain ⟨lines, hperm, hrun⟩ := worker_drains pf cfg (1 + f.size) hagree halloc
    [(cfg.start_path, f)] (seeded pf cfg) (by simp [pend_weight])
    (by intro x hx; simp only [List.mem_singleton] at hx; subst hx; exact hfs)
    (by simp [seeded, tq_push, tq_init, halloc])
  have hv : pend_visited cfg [(cfg.start_path, f)] = count_visited cfg cfg.start_path f := by
    simp [pend_visited]
  have hm : pend_matched pf cfg [(cfg.start_path, f)]
      = count_matched pf cfg cfg.start_path f := by
    simp [pend_matched]
  have hp : pend_paths pf cfg [(cfg.start_path, f)] = matched_paths pf cfg cfg.start_path f := by
    simp [pend_paths]
  rw [hp] at hperm
  rw [hv, hm] at hrun
  refine ⟨{ queue := { tasks := [], closed := false },
            visited_cnt := atomic_inc64^[count_visited cfg cfg.start_path f] 0,
            found_cnt := atomic_inc64^[count_matched pf cfg cfg.start_path f] 0,
            out := lines }, fun fuel hfuel => ?_, rfl, ?_, ?_, ?_, ?_⟩
  · rw [hrun fuel (by omega)]
    simp [seeded, tq_push, tq_init, halloc]
  · exact iterate_inc _
  · exact iterate_inc _
  · intro hsmall
    have hle := count_matched_le pf cfg cfg.start_path f
    simp only [iterate_inc]
    exact ⟨wrap64_small _ hsmall, wrap64_small _ (by omega)⟩
  · exact hperm

set_option maxRecDepth 8192 in
/-- C2 amended, on the fixture `/root/{a.txt, sub/b.TXT, sub/a.txt,
excluded/a.txt}` with pattern `a.txt`, literal mode, `/root/excluded` excluded:
the run ends with `visited_cnt` 4 and `found_cnt` 2, having printed
`/root/a.txt` and `/root/sub/a.txt`; the same when `/root/excluded` can neither
be opened nor queried. -/
theorem full_run_counts_witness :
    fs_is pf_fixture cfg_fixture cfg_fixture.start_path forest_fixture = true ∧
    (∀ e ∈ cfg_fixture.excludes, e ≠ [] ∧ 0 ∉ e) ∧
    forest_fixture.size = 6 ∧
    count_visited cfg_fixture cfg_fixture.start_path forest_fixture = 4 ∧
    count_matched pf_fixture cfg_fixture cfg_fixture.start_path forest_fixture = 2 ∧
    worker pf_fixture cfg_fixture 8 (seeded pf_fixture cfg_fixture)
      = some (.waiting,
          { queue := { tasks := [], closed := false }, visited_cnt := 4, found_cnt := 2,
            out := [bytes "/root/a.txt", bytes "/root/sub/a.txt"] }) ∧
    (∃ final : State,
      worker pf_fixture cfg_fixture 8 (seeded pf_fixture cfg_fixture)
        = some (.waiting, final) ∧
      final.visited_cnt = wrap64 4 ∧ final.found_cnt = wrap64 2) ∧
    fs_is pf_hidden cfg_fixture cfg_fixture.start_path forest_fixture = true ∧
    (∃ final : State,
      worker pf_hidden cfg_fixture 8 (seeded pf_hidden cfg_fixture)
        = some (.waiting, final) ∧
      final.visited_cnt = wrap64 4 ∧ final.found_cnt = wrap64 2) := by
  refine ⟨by decide, by decide, by decide, by decide, by decide, by decide, ?_, by decide, ?_⟩
  · obtain ⟨⟨final, hrun, _, hv, hm, _, _⟩, _⟩ :=
      full_run_counts pf_fixture cfg_fixture forest_fixture (by decide) (by decide)
        (fun _ => rfl)
    refine ⟨final, hrun 8 (by decide), ?_, ?_⟩
    · rw [hv]; decide
    · rw [hm]; decide
  · obtain ⟨⟨final, hrun, _, hv, hm, _, _⟩, _⟩ :=
      full_run_counts pf_hidden cfg_fixture forest_fixture (by decide) (by decide)
        (fun _ => rfl)
    refine ⟨final, hrun 8 (by decide), ?_, ?_⟩
    · rw [hv]; decide
    · rw [hm]; decide

end Ffi
